import Mathlib

/-!
Verification of the meshpy rendering core: a shallow embedding of
`meshpy/stable_pose.py` and `meshpy/mesh_renderer.py`.

Machine floats are modelled by exact arithmetic (`ℚ` where only field
operations and comparisons occur, `ℝ` where trigonometry and square roots
are involved).  Python failures (`ZeroDivisionError`, a `while` loop that
never terminates) are made explicit through an `Except` monad with an
error marker for division by zero and a fuel marker for divergence.
External collaborators (the `alan` rigid-transform library, the
`meshrender` rasterizer, the image wrapper classes) are embedded from
their documented contracts: a rigid transform composes by matrix
multiplication and inverts by transposing the rotation and rotating the
negated translation; the rasterizer returns one binary image and one
depth image per projection matrix.
-/

/-- Failure modes of the embedded Python code: the `ValueError` raised by
the `ViewsphereDiscretizer` constructor, a `ZeroDivisionError`, and a
marker for a `while` loop that did not terminate within the given fuel. -/
inductive MeshpyError where
  | invalidDiscretization : MeshpyError
  | zeroDivision : MeshpyError
  | outOfFuel : MeshpyError
deriving DecidableEq

/-- Python float division: raises `ZeroDivisionError` on a zero denominator. -/
noncomputable def pydiv (a b : ℝ) : Except MeshpyError ℝ :=
  if b = 0 then .error .zeroDivision else .ok (a / b)

/-- A rigid transform of the external `alan.core` library: a rotation, a
translation and two frame labels. -/
structure RigidTransform (α : Type) where
  rotation : Matrix (Fin 3) (Fin 3) α
  translation : Fin 3 → α
  from_frame : String
  to_frame : String

/-- Inverse of a rigid transform: transposed rotation, negated rotated
translation, swapped frames. -/
def RigidTransform.inverse {α : Type} [CommRing α] (T : RigidTransform α) :
    RigidTransform α :=
  { rotation := T.rotation.transpose
    translation := -(T.rotation.transpose.mulVec T.translation)
    from_frame := T.to_frame
    to_frame := T.from_frame }

/-- Composition of rigid transforms (`T1.dot T2`), matrix multiplication of
the homogeneous forms. -/
def RigidTransform.dot {α : Type} [CommRing α] (T1 T2 : RigidTransform α) :
    RigidTransform α :=
  { rotation := T1.rotation * T2.rotation
    translation := T1.rotation.mulVec T2.translation + T1.translation
    from_frame := T2.from_frame
    to_frame := T1.to_frame }

/-- A stable pose (`meshpy/stable_pose.py`): probability, rotation matrix,
contact point and identifier. -/
structure StablePose (α ι : Type) where
  p : α
  r : Matrix (Fin 3) (Fin 3) α
  x0 : Fin 3 → α
  id : ι

/-- `StablePose.__init__`: stores the four fields and, when the rotation's
determinant is within 0.01 of -1, negates its second row (the
"fix stable pose bug" branch). -/
def StablePose.init {α ι : Type} [LinearOrderedField α]
    (p : α) (r : Matrix (Fin 3) (Fin 3) α) (x0 : Fin 3 → α) (stp_id : ι) :
    StablePose α ι :=
  { p := p
    x0 := x0
    id := stp_id
    r := if |r.det + 1| < 1 / 100 then r.updateRow 1 (-(r 1)) else r }

/-- C4: StablePose construction negates exactly row 1 when det(r) is within
0.01 of -1 (bringing the determinant within 0.01 of +1), leaves the rotation
unchanged otherwise, and stores p, x0 and id unchanged in all cases. -/
theorem claim_C4_stable_pose_row_flip (p : ℚ) (r : Matrix (Fin 3) (Fin 3) ℚ)
    (x0 : Fin 3 → ℚ) (stp_id : ℤ) :
    (|r.det + 1| < 1 / 100 →
      (StablePose.init p r x0 stp_id).r = r.updateRow 1 (-(r 1)) ∧
      |(StablePose.init p r x0 stp_id).r.det - 1| < 1 / 100) ∧
    (¬ |r.det + 1| < 1 / 100 → (StablePose.init p r x0 stp_id).r = r) ∧
    (StablePose.init p r x0 stp_id).p = p ∧
    (StablePose.init p r x0 stp_id).x0 = x0 ∧
    (StablePose.init p r x0 stp_id).id = stp_id := by
  refine ⟨fun h => ⟨by simp only [StablePose.init, if_pos h], ?_⟩,
    fun h => by simp only [StablePose.init, if_neg h], rfl, rfl, rfl⟩
  have hdet : (r.updateRow 1 (-(r 1))).det = -r.det := by
    have : (r.updateRow 1 ((-1 : ℚ) • r 1)).det = (-1 : ℚ) * (r.updateRow 1 (r 1)).det :=
      Matrix.det_updateRow_smul r 1 (-1) (r 1)
    simpa [Matrix.updateRow_eq_self] using this
  simp only [StablePose.init, if_pos h, hdet]
  rw [abs_lt] at h ⊢
  constructor <;> linarith [h.1, h.2]

/-- Witness for C4 at a concrete improper rotation. -/
theorem claim_C4_witness :
    |(Matrix.det !![(1:ℚ),0,0;0,1,0;0,0,-1] + 1)| < 1 / 100 ∧
    (StablePose.init (1/2 : ℚ) !![(1:ℚ),0,0;0,1,0;0,0,-1] (fun _ => 0) (0 : ℤ)).r =
      (!![(1:ℚ),0,0;0,1,0;0,0,-1]).updateRow 1 (-(!![(1:ℚ),0,0;0,1,0;0,0,-1] 1)) := by
  have h : |(Matrix.det !![(1:ℚ),0,0;0,1,0;0,0,-1] + 1)| < 1 / 100 := by
    norm_num [Matrix.det_fin_three]
  exact ⟨h, ((claim_C4_stable_pose_row_flip (1/2) _ (fun _ => 0) 0).1 h).1⟩

/-- The render modes recognized by `wrapped_images`, plus the unsupported
`COLOR` mode from the same external enumeration. -/
inductive RenderMode where
  | SEGMASK : RenderMode
  | DEPTH : RenderMode
  | SCALED_DEPTH : RenderMode
  | COLOR : RenderMode
deriving DecidableEq

/-- An `ObjectRender`: a wrapped image paired with a camera-to-object
rigid transform. -/
structure ObjectRender (Img α : Type) where
  image : Img
  T_camera_obj : RigidTransform α

/-- `[R | t]`: a rotation and a translation stacked into a 3x4 matrix
(`np.c_[R, t]`). -/
def hstack {α : Type} (R : Matrix (Fin 3) (Fin 3) α) (t : Fin 3 → α) :
    Matrix (Fin 3) (Fin 4) α :=
  Matrix.of fun i j => if h : (j : ℕ) < 3 then R i ⟨j, h⟩ else t i

/-- The projection matrices built by `VirtualCamera.images`: one
`proj_matrix * [R | t]` per object-to-camera transform. -/
def VirtualCamera.projections {α : Type} [CommRing α]
    (proj_matrix : Matrix (Fin 3) (Fin 3) α)
    (object_to_camera_poses : List (RigidTransform α)) :
    List (Matrix (Fin 3) (Fin 4) α) :=
  object_to_camera_poses.map fun T => proj_matrix * hstack T.rotation T.translation

/-- `VirtualCamera.images`: builds the projection matrices and delegates the
whole batch to the external rasterizer, which returns one binary image and
one depth image per projection. -/
def VirtualCamera.images {α β γ : Type} [CommRing α]
    (render_mesh : List (Matrix (Fin 3) (Fin 4) α) → List β × List γ)
    (proj_matrix : Matrix (Fin 3) (Fin 3) α)
    (object_to_camera_poses : List (RigidTransform α)) : List β × List γ :=
  render_mesh (VirtualCamera.projections proj_matrix object_to_camera_poses)

/-- `VirtualCamera.wrapped_images`.  The in-place mutation
`T_stp_camera.from_frame = 'stp'` acts on the very objects the caller's list
shares with the shallow copy `stp_to_camera_poses`; the model therefore
returns, next to the result, the caller's list as observed after the call.
The unsupported-mode branch returns the `None` sentinel, modelled by
`none` in the first component. -/
def VirtualCamera.wrapped_images {α β γ Img ι : Type} [CommRing α]
    (render_mesh : List (Matrix (Fin 3) (Fin 4) α) → List β × List γ)
    (wrap_segmask : β → Img) (wrap_depth : γ → Img) (wrap_scaled_depth : γ → Img)
    (proj_matrix : Matrix (Fin 3) (Fin 3) α)
    (object_to_camera_poses : List (RigidTransform α))
    (render_mode : RenderMode)
    (stable_pose : Option (StablePose α ι)) :
    Option (List (ObjectRender Img α)) × List (RigidTransform α) :=
  let stp_to_camera_poses :=
    object_to_camera_poses.map fun T => { T with from_frame := "stp" }
  let proj_poses :=
    match stable_pose with
    | none => object_to_camera_poses
    | some sp =>
        stp_to_camera_poses.map fun T_stp_camera =>
          T_stp_camera.dot
            { rotation := sp.r, translation := fun _ => 0,
              from_frame := "obj", to_frame := "stp" }
  let caller_list :=
    match stable_pose with
    | none => object_to_camera_poses
    | some _ => stp_to_camera_poses
  let rendered := VirtualCamera.images render_mesh proj_matrix proj_poses
  let wrapped : Option (List Img) :=
    match render_mode with
    | .SEGMASK => some (rendered.1.map wrap_segmask)
    | .DEPTH => some (rendered.2.map wrap_depth)
    | .SCALED_DEPTH => some (rendered.2.map wrap_scaled_depth)
    | _ => none
  (wrapped.map fun ims =>
      List.zipWith (fun image T_obj_camera =>
        { image := image, T_camera_obj := T_obj_camera.inverse }) ims caller_list,
   caller_list)

/-- A `zipWith` whose function ignores its first argument is a `map` of the
second list, when the lengths agree. -/
theorem zipWith_snd_eq_map {σ τ δ : Type} (f : τ → δ) :
    ∀ (xs : List σ) (ys : List τ), xs.length = ys.length →
      List.zipWith (fun _ b => f b) xs ys = ys.map f
  | [], [], _ => rfl
  | _ :: xs, _ :: ys, h => by
    simpa using zipWith_snd_eq_map f xs ys (by simpa using h)

/-- The pose components of the zipped render results are the inverses of the
paired transforms, when the image count matches the transform count. -/
theorem zipWith_objectRender_poses {Img : Type} (ims : List Img)
    (caller : List (RigidTransform ℚ)) (h : ims.length = caller.length) :
    (List.zipWith (fun image T_obj_camera =>
        ({ image := image, T_camera_obj := T_obj_camera.inverse } : ObjectRender Img ℚ))
        ims caller).length = caller.length ∧
    (List.zipWith (fun image T_obj_camera =>
        ({ image := image, T_camera_obj := T_obj_camera.inverse } : ObjectRender Img ℚ))
        ims caller).map (fun o => o.T_camera_obj) = caller.map RigidTransform.inverse := by
  refine ⟨by simp [List.length_zipWith, h], ?_⟩
  rw [List.map_zipWith]
  exact zipWith_snd_eq_map _ ims caller h

/-- C10: with a stable pose, `wrapped_images` mutates the caller's input
list: every element's `from_frame` becomes `'stp'` (the shallow copy shares
the elements); with `stable_pose=None` the input is left unchanged. -/
theorem claim_C10_caller_list_mutation {β γ Img ι : Type}
    (render_mesh : List (Matrix (Fin 3) (Fin 4) ℚ) → List β × List γ)
    (wrap_segmask : β → Img) (wrap_depth : γ → Img) (wrap_scaled_depth : γ → Img)
    (K : Matrix (Fin 3) (Fin 3) ℚ)
    (poses : List (RigidTransform ℚ)) (render_mode : RenderMode)
    (sp : StablePose ℚ ι) :
    (VirtualCamera.wrapped_images render_mesh wrap_segmask wrap_depth wrap_scaled_depth
        K poses render_mode (some sp)).2 =
      poses.map (fun T => { T with from_frame := "stp" }) ∧
    (VirtualCamera.wrapped_images render_mesh wrap_segmask wrap_depth wrap_scaled_depth
        K poses render_mode (none : Option (StablePose ℚ ι))).2 = poses := by
  exact ⟨rfl, rfl⟩

/-- C7: a render mode outside SEGMASK, DEPTH, SCALED_DEPTH makes
`wrapped_images` return the `None` sentinel rather than raise. -/
theorem claim_C7_unsupported_mode_none {β γ Img ι : Type}
    (render_mesh : List (Matrix (Fin 3) (Fin 4) ℚ) → List β × List γ)
    (wrap_segmask : β → Img) (wrap_depth : γ → Img) (wrap_scaled_depth : γ → Img)
    (K : Matrix (Fin 3) (Fin 3) ℚ)
    (poses : List (RigidTransform ℚ)) (render_mode : RenderMode)
    (stable_pose : Option (StablePose ℚ ι))
    (h1 : render_mode ≠ RenderMode.SEGMASK)
    (h2 : render_mode ≠ RenderMode.DEPTH)
    (h3 : render_mode ≠ RenderMode.SCALED_DEPTH) :
    (VirtualCamera.wrapped_images render_mesh wrap_segmask wrap_depth wrap_scaled_depth
        K poses render_mode stable_pose).1 = none := by
  cases render_mode with
  | SEGMASK => exact absurd rfl h1
  | DEPTH => exact absurd rfl h2
  | SCALED_DEPTH => exact absurd rfl h3
  | COLOR => rfl

/-- Witness for C7: the unsupported COLOR mode at a concrete call. -/
theorem claim_C7_witness :
    (VirtualCamera.wrapped_images
        (fun ps => (ps.map fun _ => (0 : ℕ), ps.map fun _ => (0 : ℕ)))
        (fun b => b) (fun d => d) (fun d => d)
        (1 : Matrix (Fin 3) (Fin 3) ℚ)
        ([] : List (RigidTransform ℚ))
        RenderMode.COLOR
        (none : Option (StablePose ℚ ℤ))).1 = none :=
  claim_C7_unsupported_mode_none _ _ _ _ _ _ _ _
    (by decide) (by decide) (by decide)

/-- C1 (amended): each rendered result is paired with the inverse of the
corresponding retained transform: without a stable pose that is the i-th
input transform (the one used for projection); with a stable pose it is the
i-th original input transform with `from_frame` set to `'stp'`, not the
composed transform used for projection. -/
theorem claim_C1_amended_pose_pairing {β γ Img ι : Type}
    (render_mesh : List (Matrix (Fin 3) (Fin 4) ℚ) → List β × List γ)
    (hlen : ∀ ps, (render_mesh ps).1.length = ps.length ∧
      (render_mesh ps).2.length = ps.length)
    (wrap_segmask : β → Img) (wrap_depth : γ → Img) (wrap_scaled_depth : γ → Img)
    (K : Matrix (Fin 3) (Fin 3) ℚ)
    (poses : List (RigidTransform ℚ))
    (render_mode : RenderMode)
    (hmode : render_mode = RenderMode.SEGMASK ∨ render_mode = RenderMode.DEPTH ∨
      render_mode = RenderMode.SCALED_DEPTH)
    (stable_pose : Option (StablePose ℚ ι)) :
    ∃ l, (VirtualCamera.wrapped_images render_mesh wrap_segmask wrap_depth wrap_scaled_depth
        K poses render_mode stable_pose).1 = some l ∧
      l.length = poses.length ∧
      l.map (fun o => o.T_camera_obj) =
        (if stable_pose.isSome then
          poses.map (fun T => { T with from_frame := "stp" })
         else poses).map RigidTransform.inverse := by
  cases stable_pose with
  | none =>
    have hif : (if (none : Option (StablePose ℚ ι)).isSome then
        poses.map (fun T => { T with from_frame := "stp" }) else poses) = poses := rfl
    rw [hif]
    rcases hmode with h | h | h <;> subst h <;>
      exact ⟨_, rfl,
        (zipWith_objectRender_poses _ poses
          (by simp [VirtualCamera.images, VirtualCamera.projections, hlen])).1,
        (zipWith_objectRender_poses _ poses
          (by simp [VirtualCamera.images, VirtualCamera.projections, hlen])).2⟩
  | some sp =>
    have hif : (if (some sp).isSome then
        poses.map (fun T => { T with from_frame := "stp" }) else poses) =
          poses.map (fun T => { T with from_frame := "stp" }) := rfl
    rw [hif]
    rcases hmode with h | h | h <;> subst h <;>
      exact ⟨_, rfl,
        by simpa using (zipWith_objectRender_poses _
          (poses.map (fun T => { T with from_frame := "stp" }))
          (by simp [VirtualCamera.images, VirtualCamera.projections, hlen])).1,
        (zipWith_objectRender_poses _ (poses.map (fun T => { T with from_frame := "stp" }))
          (by simp [VirtualCamera.images, VirtualCamera.projections, hlen])).2⟩

/-- C1 as stated is false on the code: with a stable pose, the i-th result's
pose is not the inverse of the i-th composed (object-via-stable-pose)-to-camera
transform used for projection; the code reverts to the retained
stable-pose-frame-to-camera transforms before inverting. -/
theorem claim_C1_counterexample :
    ((VirtualCamera.wrapped_images
        (fun ps => (ps.map fun _ => (0 : ℕ), ps.map fun _ => (0 : ℕ)))
        (fun b => b) (fun d => d) (fun d => d)
        (1 : Matrix (Fin 3) (Fin 3) ℚ)
        [{ rotation := 1, translation := fun _ => 0,
           from_frame := "obj", to_frame := "camera" }]
        RenderMode.SEGMASK
        (some (⟨1, !![(0:ℚ),-1,0;1,0,0;0,0,1], fun _ => 0, (0 : ℤ)⟩ : StablePose ℚ ℤ))).1.map
      (fun l => l.map fun o => o.T_camera_obj)) ≠
    some [(RigidTransform.dot
        ({ rotation := 1, translation := fun _ => 0,
           from_frame := "stp", to_frame := "camera" } : RigidTransform ℚ)
        ({ rotation := !![(0:ℚ),-1,0;1,0,0;0,0,1], translation := fun _ => 0,
           from_frame := "obj", to_frame := "stp" } : RigidTransform ℚ)).inverse] := by
  intro h
  have h0 := congrArg (fun o => (o.map (fun l => l.map fun T => T.rotation 0 0)).getD []) h
  simp only [VirtualCamera.wrapped_images, VirtualCamera.images, VirtualCamera.projections,
    RigidTransform.inverse, RigidTransform.dot, List.map_cons, List.map_nil,
    List.zipWith_cons_cons, List.zipWith_nil_right, Option.map_some', Option.getD_some] at h0
  norm_num [Matrix.transpose_apply, Matrix.mul_apply, Fin.sum_univ_three] at h0

/-- Witness for the amended C1 at a concrete call with a stable pose. -/
theorem claim_C1_witness :
    ∃ l, (VirtualCamera.wrapped_images
        (fun ps => (ps.map fun _ => (0 : ℕ), ps.map fun _ => (0 : ℕ)))
        (fun b => b) (fun d => d) (fun d => d)
        (1 : Matrix (Fin 3) (Fin 3) ℚ)
        [{ rotation := 1, translation := fun _ => 0,
           from_frame := "obj", to_frame := "camera" }]
        RenderMode.SEGMASK
        (some (⟨1, !![(0:ℚ),-1,0;1,0,0;0,0,1], fun _ => 0, (0 : ℤ)⟩ : StablePose ℚ ℤ))).1 =
        some l ∧
      l.length = [({ rotation := 1, translation := fun _ => 0,
                     from_frame := "obj", to_frame := "camera" } : RigidTransform ℚ)].length ∧
      l.map (fun o => o.T_camera_obj) =
        (if (some (⟨1, !![(0:ℚ),-1,0;1,0,0;0,0,1], fun _ => 0, (0 : ℤ)⟩ : StablePose ℚ ℤ)).isSome
         then [({ rotation := 1, translation := fun _ => 0,
                  from_frame := "obj", to_frame := "camera" } : RigidTransform ℚ)].map
             (fun T => { T with from_frame := "stp" })
         else [({ rotation := 1, translation := fun _ => 0,
                  from_frame := "obj", to_frame := "camera" } : RigidTransform ℚ)]).map
          RigidTransform.inverse :=
  claim_C1_amended_pose_pairing _ (fun ps => ⟨by simp, by simp⟩) _ _ _ _ _ _
    (Or.inl rfl) _

/-- `ViewsphereDiscretizer.sph2cart`: spherical to Cartesian coordinates in
the physics convention. -/
noncomputable def ViewsphereDiscretizer.sph2cart (r az elev : ℝ) : ℝ × ℝ × ℝ :=
  (r * Real.cos az * Real.sin elev,
   r * Real.sin az * Real.sin elev,
   r * Real.cos elev)

/-- `ViewsphereDiscretizer.cart2sph`: Cartesian to spherical coordinates.
The azimuth is assigned by an 8-branch case analysis on the signs of x and y;
when no branch applies (x == 0 and y == 0) the Python variable `az` is never
bound and the function fails with a `NameError`, modelled by `none`. -/
noncomputable def ViewsphereDiscretizer.cart2sph (x y z : ℝ) : Option (ℝ × ℝ × ℝ) :=
  let r := Real.sqrt (x ^ 2 + y ^ 2 + z ^ 2)
  let az : Option ℝ :=
    if x > 0 ∧ y > 0 then some (Real.arctan (y / x))
    else if x > 0 ∧ y < 0 then some (2 * Real.pi - Real.arctan (-y / x))
    else if x < 0 ∧ y > 0 then some (Real.pi - Real.arctan (-y / x))
    else if x < 0 ∧ y < 0 then some (Real.pi + Real.arctan (y / x))
    else if x = 0 ∧ y > 0 then some (Real.pi / 2)
    else if x = 0 ∧ y < 0 then some (3 * Real.pi / 2)
    else if y = 0 ∧ x > 0 then some 0
    else if y = 0 ∧ x < 0 then some Real.pi
    else none
  let elev := Real.arccos (z / r)
  az.map fun a => (r, a, elev)

/-- C8: `cart2sph` assigns no azimuth when x == 0 and y == 0 (the call
fails rather than returning), and returns a value whenever x ≠ 0 or y ≠ 0. -/
theorem claim_C8_cart2sph_pole (x y z : ℝ) :
    (x = 0 ∧ y = 0 → ViewsphereDiscretizer.cart2sph x y z = none) ∧
    ((x ≠ 0 ∨ y ≠ 0) → ∃ v, ViewsphereDiscretizer.cart2sph x y z = some v) := by
  constructor
  · rintro ⟨rfl, rfl⟩
    simp [ViewsphereDiscretizer.cart2sph]
  · intro h
    simp only [ViewsphereDiscretizer.cart2sph]
    split_ifs with h1 h2 h3 h4 h5 h6 h7 h8
    · exact ⟨_, rfl⟩
    · exact ⟨_, rfl⟩
    · exact ⟨_, rfl⟩
    · exact ⟨_, rfl⟩
    · exact ⟨_, rfl⟩
    · exact ⟨_, rfl⟩
    · exact ⟨_, rfl⟩
    · exact ⟨_, rfl⟩
    · exfalso
      rcases lt_trichotomy x 0 with hx | hx | hx <;>
        rcases lt_trichotomy y 0 with hy | hy | hy
      · exact h4 ⟨hx, hy⟩
      · exact h8 ⟨hy, hx⟩
      · exact h3 ⟨hx, hy⟩
      · exact h6 ⟨hx, hy⟩
      · exact h.elim (fun hh => hh hx) (fun hh => hh hy)
      · exact h5 ⟨hx, hy⟩
      · exact h2 ⟨hx, hy⟩
      · exact h7 ⟨hy, hx⟩
      · exact h1 ⟨hx, hy⟩

/-- Witness for C8 at the pole and at a regular point. -/
theorem claim_C8_witness :
    ViewsphereDiscretizer.cart2sph 0 0 1 = none ∧
    ∃ v, ViewsphereDiscretizer.cart2sph 1 0 0 = some v :=
  ⟨(claim_C8_cart2sph_pole 0 0 1).1 ⟨rfl, rfl⟩,
   (claim_C8_cart2sph_pole 1 0 0).2 (Or.inl one_ne_zero)⟩

/-- C5: `cart2sph` inverts `sph2cart` exactly for r > 0, elevation in
(0, π), and azimuth in (0, 2π) away from π/2, π and 3π/2, with the azimuth
recovered by the quadrant branch matching the signs of x and y. -/
theorem claim_C5_sph_cart_roundtrip (r az elev : ℝ)
    (hr : 0 < r) (he0 : 0 < elev) (hepi : elev < Real.pi)
    (ha0 : 0 < az) (ha2 : az < 2 * Real.pi)
    (hq1 : az ≠ Real.pi / 2) (hq2 : az ≠ Real.pi) (hq3 : az ≠ 3 * Real.pi / 2) :
    ViewsphereDiscretizer.cart2sph
      (ViewsphereDiscretizer.sph2cart r az elev).1
      (ViewsphereDiscretizer.sph2cart r az elev).2.1
      (ViewsphereDiscretizer.sph2cart r az elev).2.2 = some (r, az, elev) := by
  have hpi := Real.pi_pos
  have hsin : 0 < Real.sin elev := Real.sin_pos_of_pos_of_lt_pi he0 hepi
  dsimp only [ViewsphereDiscretizer.sph2cart, ViewsphereDiscretizer.cart2sph]
  set x := r * Real.cos az * Real.sin elev with hxdef
  set y := r * Real.sin az * Real.sin elev with hydef
  set z := r * Real.cos elev with hzdef
  have hsum : x ^ 2 + y ^ 2 + z ^ 2 = r ^ 2 := by
    have h1 : x ^ 2 + y ^ 2 + z ^ 2 =
        r ^ 2 * (Real.sin elev ^ 2 * (Real.sin az ^ 2 + Real.cos az ^ 2) +
          Real.cos elev ^ 2) := by
      rw [hxdef, hydef, hzdef]; ring
    rw [h1, Real.sin_sq_add_cos_sq, mul_one, Real.sin_sq_add_cos_sq, mul_one]
  have hsqrt : Real.sqrt (x ^ 2 + y ^ 2 + z ^ 2) = r := by
    rw [hsum]; exact Real.sqrt_sq hr.le
  have helev : Real.arccos (z / Real.sqrt (x ^ 2 + y ^ 2 + z ^ 2)) = elev := by
    rw [hsqrt, hzdef, mul_comm, mul_div_assoc, div_self hr.ne', mul_one]
    exact Real.arccos_cos he0.le hepi.le
  rcases hq2.lt_or_lt with hmid | hmid
  · rcases hq1.lt_or_lt with hA | hB
    · -- first quadrant: 0 < az < π/2
      have hcos : 0 < Real.cos az := Real.cos_pos_of_mem_Ioo ⟨by linarith, hA⟩
      have hsaz : 0 < Real.sin az := Real.sin_pos_of_pos_of_lt_pi ha0 hmid
      have hx0 : 0 < x := by rw [hxdef]; positivity
      have hy0 : 0 < y := by rw [hydef]; positivity
      rw [if_pos ⟨hx0, hy0⟩, Option.map_some']
      refine congrArg some ?_
      simp only [Prod.mk.injEq]
      refine ⟨hsqrt, ?_, helev⟩
      have harg : y / x = Real.tan az := by
        rw [hydef, hxdef, Real.tan_eq_sin_div_cos]
        field_simp [hr.ne', hsin.ne', hcos.ne']
        ring
      rw [harg, Real.arctan_tan (by linarith) hA]
    · -- second quadrant: π/2 < az < π
      have hcos : Real.cos az < 0 :=
        Real.cos_neg_of_pi_div_two_lt_of_lt hB (by linarith)
      have hsaz : 0 < Real.sin az := Real.sin_pos_of_pos_of_lt_pi ha0 hmid
      have hx0 : x < 0 := by
        rw [hxdef]
        exact mul_neg_of_neg_of_pos (mul_neg_of_pos_of_neg hr hcos) hsin
      have hy0 : 0 < y := by rw [hydef]; positivity
      rw [if_neg (by rintro ⟨c, -⟩; linarith), if_neg (by rintro ⟨c, -⟩; linarith),
        if_pos ⟨hx0, hy0⟩, Option.map_some']
      refine congrArg some ?_
      simp only [Prod.mk.injEq]
      refine ⟨hsqrt, ?_, helev⟩
      have harg : -y / x = Real.tan (Real.pi - az) := by
        rw [Real.tan_pi_sub, Real.tan_eq_sin_div_cos, hydef, hxdef]
        field_simp [hr.ne', hsin.ne', hcos.ne]
        ring
      rw [harg, Real.arctan_tan (by linarith) (by linarith)]
      ring
  · rcases hq3.lt_or_lt with hC | hD
    · -- third quadrant: π < az < 3π/2
      have hs1 : 0 < Real.sin (az - Real.pi) :=
        Real.sin_pos_of_pos_of_lt_pi (by linarith) (by linarith)
      have hc1 : 0 < Real.cos (az - Real.pi) :=
        Real.cos_pos_of_mem_Ioo ⟨by linarith, by linarith⟩
      have hsaz : Real.sin az < 0 := by
        have := Real.sin_sub_pi az
        linarith
      have hcos : Real.cos az < 0 := by
        have := Real.cos_sub_pi az
        linarith
      have hx0 : x < 0 := by
        rw [hxdef]
        exact mul_neg_of_neg_of_pos (mul_neg_of_pos_of_neg hr hcos) hsin
      have hy0 : y < 0 := by
        rw [hydef]
        exact mul_neg_of_neg_of_pos (mul_neg_of_pos_of_neg hr hsaz) hsin
      rw [if_neg (by rintro ⟨c, -⟩; linarith), if_neg (by rintro ⟨c, -⟩; linarith),
        if_neg (by rintro ⟨-, c⟩; linarith), if_pos ⟨hx0, hy0⟩, Option.map_some']
      refine congrArg some ?_
      simp only [Prod.mk.injEq]
      refine ⟨hsqrt, ?_, helev⟩
      have harg : y / x = Real.tan (az - Real.pi) := by
        rw [Real.tan_sub_pi, Real.tan_eq_sin_div_cos, hydef, hxdef]
        field_simp [hr.ne', hsin.ne', hcos.ne]
        ring
      rw [harg, Real.arctan_tan (by linarith) (by linarith)]
      ring
    · -- fourth quadrant: 3π/2 < az < 2π
      have hs1 : 0 < Real.sin (az - Real.pi) :=
        Real.sin_pos_of_pos_of_lt_pi (by linarith) (by linarith)
      have hsaz : Real.sin az < 0 := by
        have := Real.sin_sub_pi az
        linarith
      have hc1 : 0 < Real.cos (2 * Real.pi - az) :=
        Real.cos_pos_of_mem_Ioo ⟨by linarith, by linarith⟩
      have hcos : 0 < Real.cos az := by
        have := Real.cos_two_pi_sub az
        linarith
      have hx0 : 0 < x := by rw [hxdef]; positivity
      have hy0 : y < 0 := by
        rw [hydef]
        exact mul_neg_of_neg_of_pos (mul_neg_of_pos_of_neg hr hsaz) hsin
      rw [if_neg (by rintro ⟨-, c⟩; linarith), if_pos ⟨hx0, hy0⟩, Option.map_some']
      refine congrArg some ?_
      simp only [Prod.mk.injEq]
      refine ⟨hsqrt, ?_, helev⟩
      have htn : Real.tan (2 * Real.pi - az) = -Real.tan az := by
        rw [show (2 * Real.pi - az : ℝ) = Real.pi - az + Real.pi by ring,
          Real.tan_add_pi, Real.tan_pi_sub]
      have harg : -y / x = Real.tan (2 * Real.pi - az) := by
        rw [htn, Real.tan_eq_sin_div_cos, hydef, hxdef]
        field_simp [hr.ne', hsin.ne', hcos.ne']
        ring
      rw [harg, Real.arctan_tan (by linarith) (by linarith)]
      ring

/-- Witness for C5 at r = 1, az = 1, elev = 1. -/
theorem claim_C5_witness :
    ViewsphereDiscretizer.cart2sph
      (ViewsphereDiscretizer.sph2cart 1 1 1).1
      (ViewsphereDiscretizer.sph2cart 1 1 1).2.1
      (ViewsphereDiscretizer.sph2cart 1 1 1).2.2 = some (1, 1, 1) := by
  have h3 := Real.pi_gt_three
  exact claim_C5_sph_cart_roundtrip 1 1 1 (by norm_num) (by norm_num) (by linarith)
    (by norm_num) (by linarith) (by intro h; linarith)
    (by intro h; linarith) (by intro h; linarith)



/-- Squared-sum Euclidean norm of a 3-vector (`np.linalg.norm`). -/
noncomputable def norm3 (v : Fin 3 → ℝ) : ℝ :=
  Real.sqrt (v 0 ^ 2 + v 1 ^ 2 + v 2 ^ 2)

/-- Dot product of 3-vectors. -/
def dot3 (a b : Fin 3 → ℝ) : ℝ := a 0 * b 0 + a 1 * b 1 + a 2 * b 2

/-- Cross product of 3-vectors (`np.cross`). -/
def cross3 (a b : Fin 3 → ℝ) : Fin 3 → ℝ :=
  ![a 1 * b 2 - a 2 * b 1, a 2 * b 0 - a 0 * b 2, a 0 * b 1 - a 1 * b 0]

/-- Componentwise division of a 3-vector by a scalar. -/
noncomputable def vdiv (v : Fin 3 → ℝ) (c : ℝ) : Fin 3 → ℝ := fun i => v i / c

/-- The matrix with the given columns (`np.c_[x, y, z]`). -/
def colMat (x y z : Fin 3 → ℝ) : Matrix (Fin 3) (Fin 3) ℝ :=
  Matrix.of fun i j => if j = 0 then x i else if j = 1 then y i else z i

/-- The in-plane roll rotation `R_camera_par_camera`. -/
noncomputable def rollMat (roll : ℝ) : Matrix (Fin 3) (Fin 3) ℝ :=
  !![Real.cos roll, -Real.sin roll, 0;
     Real.sin roll, Real.cos roll, 0;
     0, 0, 1]

/-- `camera_center_obj`: the camera center from spherical coordinates. -/
noncomputable def cameraCenter (radius az elev : ℝ) : Fin 3 → ℝ :=
  ![(ViewsphereDiscretizer.sph2cart radius az elev).1,
    (ViewsphereDiscretizer.sph2cart radius az elev).2.1,
    (ViewsphereDiscretizer.sph2cart radius az elev).2.2]

/-- `camera_z_obj`: the negated, normalized camera center. -/
noncomputable def cameraZ (radius az elev : ℝ) : Fin 3 → ℝ :=
  vdiv (-cameraCenter radius az elev) (norm3 (cameraCenter radius az elev))

/-- `camera_x_par_obj` before normalization: the in-plane perpendicular of
the camera z-axis, or the world x-axis at the pole. -/
noncomputable def cameraXPar (z : Fin 3 → ℝ) : Fin 3 → ℝ :=
  if norm3 ![z 1, -z 0, 0] = 0 then ![1, 0, 0] else ![z 1, -z 0, 0]

/-- `camera_x_par_obj` after normalization. -/
noncomputable def cameraX1 (z : Fin 3 → ℝ) : Fin 3 → ℝ :=
  vdiv (cameraXPar z) (norm3 (cameraXPar z))

/-- `camera_y_par_obj` before the tie-break. -/
noncomputable def cameraY1 (z : Fin 3 → ℝ) : Fin 3 → ℝ :=
  vdiv (cross3 z (cameraX1 z)) (norm3 (cross3 z (cameraX1 z)))

/-- `camera_x_par_obj` after the tie-break: flipped when the y-axis has a
positive world-z component. -/
noncomputable def cameraX2 (z : Fin 3 → ℝ) : Fin 3 → ℝ :=
  if 0 < cameraY1 z 2 then -cameraX1 z else cameraX1 z

/-- `camera_y_par_obj` after the tie-break, recomputed from the flipped
x-axis. -/
noncomputable def cameraY2 (z : Fin 3 → ℝ) : Fin 3 → ℝ :=
  if 0 < cameraY1 z 2 then
    vdiv (cross3 z (-cameraX1 z)) (norm3 (cross3 z (-cameraX1 z)))
  else cameraY1 z

/-- The loop body of `object_to_camera_poses`: the object-to-camera rigid
transform built from one (radius, azimuth, elevation, roll) sample. -/
noncomputable def mkPose (radius az elev roll : ℝ) : RigidTransform ℝ :=
  (RigidTransform.mk
    (colMat (cameraX2 (cameraZ radius az elev)) (cameraY2 (cameraZ radius az elev))
      (cameraZ radius az elev) * rollMat roll)
    (cameraCenter radius az elev) "camera" "obj").inverse

/-- The viewsphere discretization configuration (twelve stored values). -/
structure ViewsphereDiscretizer where
  min_radius : ℝ
  max_radius : ℝ
  num_radii : ℤ
  min_az : ℝ
  max_az : ℝ
  num_az : ℤ
  min_elev : ℝ
  max_elev : ℝ
  num_elev : ℤ
  min_roll : ℝ
  max_roll : ℝ
  num_roll : ℤ

/-- `ViewsphereDiscretizer.__init__`: validates only the radius, azimuth and
elevation counts, then stores all twelve values unchanged. -/
def ViewsphereDiscretizer.init (min_radius max_radius : ℝ) (num_radii : ℤ)
    (min_elev max_elev : ℝ) (num_elev : ℤ)
    (min_az max_az : ℝ) (num_az : ℤ)
    (min_roll max_roll : ℝ) (num_roll : ℤ) :
    Except MeshpyError ViewsphereDiscretizer :=
  if num_radii < 1 ∨ num_az < 1 ∨ num_elev < 1 then
    .error .invalidDiscretization
  else
    .ok { min_radius := min_radius, max_radius := max_radius, num_radii := num_radii,
          min_az := min_az, max_az := max_az, num_az := num_az,
          min_elev := min_elev, max_elev := max_elev, num_elev := num_elev,
          min_roll := min_roll, max_roll := max_roll, num_roll := num_roll }

/-- The increment computation shared by the radius and elevation axes
(lines 110-122 of `mesh_renderer.py`): 1 when max == min, max-min+1 when
the count is 1, else the division by count-1. -/
noncomputable def incStep (mn mx : ℝ) (num : ℤ) : Except MeshpyError ℝ :=
  if mx = mn then pure 1
  else if num = 1 then pure (mx - mn + 1)
  else pydiv (mx - mn) ((num : ℝ) - 1)

/-- The value produced by `incStep` on a valid count. -/
noncomputable def stepLE (mn mx : ℝ) (num : ℤ) : ℝ :=
  if mx = mn then 1 else if num = 1 then mx - mn + 1 else (mx - mn) / ((num : ℝ) - 1)

/-- A fueled `while x <= stop` loop collecting the iterates `x, x+inc, ...`;
running out of fuel marks divergence. -/
noncomputable def loopLE (stop inc : ℝ) : ℕ → ℝ → Except MeshpyError (List ℝ)
  | 0, x => if x ≤ stop then .error .outOfFuel else .ok []
  | fuel + 1, x =>
      if x ≤ stop then (loopLE stop inc fuel (x + inc)).map (fun l => x :: l)
      else .ok []

/-- A fueled `while x < stop` loop collecting the iterates. -/
noncomputable def loopLT (stop inc : ℝ) : ℕ → ℝ → Except MeshpyError (List ℝ)
  | 0, x => if x < stop then .error .outOfFuel else .ok []
  | fuel + 1, x =>
      if x < stop then (loopLT stop inc fuel (x + inc)).map (fun l => x :: l)
      else .ok []

/-- `ViewsphereDiscretizer.object_to_camera_poses`: computes the four
increments (in source order, each division checked), then runs the four
nested loops, radius outermost with an inclusive bound, elevation inclusive,
azimuth exclusive, roll exclusive, building one pose per sample. -/
noncomputable def ViewsphereDiscretizer.object_to_camera_poses
    (v : ViewsphereDiscretizer) (fuel : ℕ) :
    Except MeshpyError (List (RigidTransform ℝ)) := do
  let radius_inc ← incStep v.min_radius v.max_radius v.num_radii
  let az_inc ← pydiv (v.max_az - v.min_az) (v.num_az : ℝ)
  let elev_inc ← incStep v.min_elev v.max_elev v.num_elev
  let roll_inc ← pydiv (v.max_roll - v.min_roll) (v.num_roll : ℝ)
  let radii ← loopLE v.max_radius radius_inc fuel v.min_radius
  let nested ← radii.mapM fun radius => do
    let elevs ← loopLE v.max_elev elev_inc fuel v.min_elev
    let n2 ← elevs.mapM fun elev => do
      let azs ← loopLT v.max_az az_inc fuel v.min_az
      let n3 ← azs.mapM fun az => do
        let rolls ← loopLT v.max_roll roll_inc fuel v.min_roll
        pure (rolls.map fun roll => mkPose radius az elev roll)
      pure n3.flatten
    pure n2.flatten
  pure nested.flatten

/-- Binding an `ok` value just applies the continuation. -/
theorem except_ok_bind {ε σ τ : Type} (a : σ) (f : σ → Except ε τ) :
    (Except.ok a >>= f) = f a := rfl

/-- Binding an error propagates it. -/
theorem except_error_bind {ε σ τ : Type} (e : ε) (f : σ → Except ε τ) :
    ((Except.error e : Except ε σ) >>= f) = .error e := rfl

/-- Inversion for `ok` results of a bind. -/
theorem except_bind_ok {ε σ τ : Type} (x : Except ε σ) (f : σ → Except ε τ) (b : τ) :
    (x >>= f) = .ok b ↔ ∃ a, x = .ok a ∧ f a = .ok b := by
  cases x <;> simp [Bind.bind, Except.bind]

/-- `pydiv` succeeds exactly on nonzero denominators. -/
theorem pydiv_ok (a b : ℝ) (h : b ≠ 0) : pydiv a b = .ok (a / b) := by
  rw [pydiv, if_neg h]

/-- `incStep` always succeeds: the division only happens when num is not 1. -/
theorem incStep_ok (mn mx : ℝ) (num : ℤ) :
    incStep mn mx num = .ok (stepLE mn mx num) := by
  rw [incStep, stepLE]
  split_ifs with h1 h2
  · rfl
  · rfl
  · refine pydiv_ok _ _ ?_
    rw [sub_ne_zero]
    exact_mod_cast h2

/-- `pydiv` by zero raises. -/
theorem pydiv_zero (a : ℝ) : pydiv a 0 = .error .zeroDivision := by
  rw [pydiv, if_pos rfl]

/-- C6: the constructor fails with the invalid-discretization error exactly
when one of the radius, azimuth or elevation counts is below 1, and stores
all twelve configuration values unchanged otherwise (num_roll included,
unvalidated). -/
theorem claim_C6_constructor_validation (min_radius max_radius : ℝ) (num_radii : ℤ)
    (min_elev max_elev : ℝ) (num_elev : ℤ) (min_az max_az : ℝ) (num_az : ℤ)
    (min_roll max_roll : ℝ) (num_roll : ℤ) :
    (ViewsphereDiscretizer.init min_radius max_radius num_radii min_elev max_elev num_elev
        min_az max_az num_az min_roll max_roll num_roll = .error .invalidDiscretization ↔
      (num_radii < 1 ∨ num_az < 1 ∨ num_elev < 1)) ∧
    (¬ (num_radii < 1 ∨ num_az < 1 ∨ num_elev < 1) →
      ViewsphereDiscretizer.init min_radius max_radius num_radii min_elev max_elev num_elev
        min_az max_az num_az min_roll max_roll num_roll =
      .ok { min_radius := min_radius, max_radius := max_radius, num_radii := num_radii,
            min_az := min_az, max_az := max_az, num_az := num_az,
            min_elev := min_elev, max_elev := max_elev, num_elev := num_elev,
            min_roll := min_roll, max_roll := max_roll, num_roll := num_roll }) := by
  refine ⟨⟨fun h => ?_, fun h => by rw [ViewsphereDiscretizer.init, if_pos h]⟩,
    fun h => by rw [ViewsphereDiscretizer.init, if_neg h]⟩
  by_contra hc
  rw [ViewsphereDiscretizer.init, if_neg hc] at h
  exact Except.noConfusion h

/-- Witness for C6: a failing and a succeeding concrete construction. -/
theorem claim_C6_witness :
    ViewsphereDiscretizer.init 1 2 0 0 1 2 0 1 2 0 1 2 = .error .invalidDiscretization ∧
    ViewsphereDiscretizer.init 1 2 3 0 1 2 0 1 2 0 1 2 =
      .ok { min_radius := 1, max_radius := 2, num_radii := 3,
            min_az := 0, max_az := 1, num_az := 2,
            min_elev := 0, max_elev := 1, num_elev := 2,
            min_roll := 0, max_roll := 1, num_roll := 2 } :=
  ⟨(claim_C6_constructor_validation 1 2 0 0 1 2 0 1 2 0 1 2).1.mpr (by norm_num),
   (claim_C6_constructor_validation 1 2 3 0 1 2 0 1 2 0 1 2).2 (by norm_num)⟩

/-- C9: `num_roll` is not validated: construction succeeds for any
num_roll < 1, and `object_to_camera_poses` with num_roll == 0 fails with an
unguarded division by zero when computing the roll step, for every fuel. -/
theorem claim_C9_num_roll_division_by_zero (min_radius max_radius : ℝ) (num_radii : ℤ)
    (min_elev max_elev : ℝ) (num_elev : ℤ) (min_az max_az : ℝ) (num_az : ℤ)
    (min_roll max_roll : ℝ)
    (hnr : 1 ≤ num_radii) (hna : 1 ≤ num_az) (hne : 1 ≤ num_elev) :
    (∀ num_roll : ℤ, num_roll < 1 →
      ViewsphereDiscretizer.init min_radius max_radius num_radii min_elev max_elev num_elev
        min_az max_az num_az min_roll max_roll num_roll =
      .ok { min_radius := min_radius, max_radius := max_radius, num_radii := num_radii,
            min_az := min_az, max_az := max_az, num_az := num_az,
            min_elev := min_elev, max_elev := max_elev, num_elev := num_elev,
            min_roll := min_roll, max_roll := max_roll, num_roll := num_roll }) ∧
    (∀ fuel : ℕ,
      ViewsphereDiscretizer.object_to_camera_poses
        { min_radius := min_radius, max_radius := max_radius, num_radii := num_radii,
          min_az := min_az, max_az := max_az, num_az := num_az,
          min_elev := min_elev, max_elev := max_elev, num_elev := num_elev,
          min_roll := min_roll, max_roll := max_roll, num_roll := (0 : ℤ) } fuel =
      .error .zeroDivision) := by
  constructor
  · intro num_roll _
    rw [ViewsphereDiscretizer.init, if_neg (by omega)]
  · intro fuel
    have haz : ((num_az : ℝ)) ≠ 0 := by
      have : num_az ≠ 0 := by omega
      exact_mod_cast this
    simp only [ViewsphereDiscretizer.object_to_camera_poses, incStep_ok, except_ok_bind,
      pydiv_ok _ _ haz, Int.cast_zero, pydiv_zero, except_error_bind]

/-- Witness for C9 at a concrete configuration. -/
theorem claim_C9_witness :
    ViewsphereDiscretizer.init 1 2 1 0 1 1 0 1 1 0 1 0 =
      .ok { min_radius := 1, max_radius := 2, num_radii := 1,
            min_az := 0, max_az := 1, num_az := 1,
            min_elev := 0, max_elev := 1, num_elev := 1,
            min_roll := 0, max_roll := 1, num_roll := 0 } ∧
    ViewsphereDiscretizer.object_to_camera_poses
      { min_radius := 1, max_radius := 2, num_radii := 1,
        min_az := 0, max_az := 1, num_az := 1,
        min_elev := 0, max_elev := 1, num_elev := 1,
        min_roll := 0, max_roll := 1, num_roll := (0 : ℤ) } 5 =
      .error .zeroDivision :=
  ⟨(claim_C9_num_roll_division_by_zero 1 2 1 0 1 1 0 1 1 0 1
      (by norm_num) (by norm_num) (by norm_num)).1 0 (by norm_num),
   (claim_C9_num_roll_division_by_zero 1 2 1 0 1 1 0 1 1 0 1
      (by norm_num) (by norm_num) (by norm_num)).2 5⟩

/-- `Except.map` on an `ok` value. -/
theorem except_map_ok {ε σ τ : Type} (f : σ → τ) (a : σ) :
    (Except.ok a : Except ε σ).map f = .ok (f a) := rfl

/-- `Except.map` on an error. -/
theorem except_map_error {ε σ τ : Type} (f : σ → τ) (e : ε) :
    (Except.error e : Except ε σ).map f = .error e := rfl

/-- Number of iterations of the inclusive loop from x (exact arithmetic). -/
noncomputable def lenLE (stop inc x : ℝ) : ℕ :=
  if x ≤ stop then (⌊(stop - x) / inc⌋ + 1).toNat else 0

/-- Number of iterations of the exclusive loop from x (exact arithmetic). -/
noncomputable def lenLT (stop inc x : ℝ) : ℕ := (⌈(stop - x) / inc⌉).toNat

/-- One inclusive iteration shortens the remaining count by one. -/
theorem lenLE_step (stop inc x : ℝ) (hinc : 0 < inc) (hx : x ≤ stop) :
    lenLE stop inc x = lenLE stop inc (x + inc) + 1 := by
  rw [lenLE, if_pos hx, lenLE]
  by_cases h2 : x + inc ≤ stop
  · rw [if_pos h2]
    have hq1 : (1 : ℝ) ≤ (stop - x) / inc := (le_div_iff₀ hinc).mpr (by linarith)
    have h1 : (stop - (x + inc)) / inc = (stop - x) / inc - 1 := by
      field_simp
      ring
    rw [h1, show ((stop - x) / inc - 1 : ℝ) = (stop - x) / inc - ((1 : ℤ) : ℝ) by norm_num,
      Int.floor_sub_int]
    have hfl : 1 ≤ ⌊(stop - x) / inc⌋ := Int.le_floor.mpr (by exact_mod_cast hq1)
    omega
  · rw [if_neg h2]
    have hq : (stop - x) / inc < 1 := (div_lt_one hinc).mpr (by linarith)
    have h0 : (0 : ℝ) ≤ (stop - x) / inc := div_nonneg (by linarith) hinc.le
    have hfl0 : ⌊(stop - x) / inc⌋ = 0 := by
      have ha := Int.floor_nonneg.mpr h0
      have hb : ⌊(stop - x) / inc⌋ < 1 := Int.floor_lt.mpr (by exact_mod_cast hq)
      omega
    rw [hfl0]
    decide

/-- One exclusive iteration shortens the remaining count by one. -/
theorem lenLT_step (stop inc x : ℝ) (hinc : 0 < inc) (hx : x < stop) :
    lenLT stop inc x = lenLT stop inc (x + inc) + 1 := by
  rw [lenLT, lenLT]
  have hq : 0 < (stop - x) / inc := div_pos (by linarith) hinc
  have h1 : (stop - (x + inc)) / inc = (stop - x) / inc - 1 := by
    field_simp
    ring
  rw [h1, show ((stop - x) / inc - 1 : ℝ) = (stop - x) / inc - ((1 : ℤ) : ℝ) by norm_num,
    Int.ceil_sub_int]
  have hc : 1 ≤ ⌈(stop - x) / inc⌉ := Int.ceil_pos.mpr hq
  omega

/-- The inclusive loop runs at least once when the condition holds. -/
theorem lenLE_pos (stop inc x : ℝ) (hinc : 0 < inc) (hx : x ≤ stop) :
    1 ≤ lenLE stop inc x := by
  rw [lenLE, if_pos hx]
  have h0 : (0 : ℝ) ≤ (stop - x) / inc := div_nonneg (by linarith) hinc.le
  have := Int.floor_nonneg.mpr h0
  omega

/-- The exclusive loop runs at least once when the condition holds. -/
theorem lenLT_pos (stop inc x : ℝ) (hinc : 0 < inc) (hx : x < stop) :
    1 ≤ lenLT stop inc x := by
  rw [lenLT]
  have hq : 0 < (stop - x) / inc := div_pos (by linarith) hinc
  have := Int.ceil_pos.mpr hq
  omega

/-- Prepending the start value to the iterates from x+inc gives the iterates
from x. -/
theorem range_map_step (x inc : ℝ) (n : ℕ) :
    (List.range (n + 1)).map (fun k : ℕ => x + (k : ℝ) * inc) =
      x :: (List.range n).map (fun k : ℕ => (x + inc) + (k : ℝ) * inc) := by
  rw [List.range_succ_eq_map, List.map_cons, List.map_map]
  congr 1
  · norm_num
  · congr 1
    funext k
    simp only [Function.comp_apply]
    push_cast
    ring

/-- Whatever list an inclusive loop returns is the arithmetic progression of
its realized length. -/
theorem loopLE_ok_closed (stop inc : ℝ) (hinc : 0 < inc) :
    ∀ (fuel : ℕ) (x : ℝ) (l : List ℝ), loopLE stop inc fuel x = .ok l →
      l = (List.range (lenLE stop inc x)).map (fun k : ℕ => x + (k : ℝ) * inc) := by
  intro fuel
  induction fuel with
  | zero =>
    intro x l h
    rw [loopLE] at h
    split_ifs at h with hcond
    cases h
    rw [lenLE, if_neg hcond]
    simp
  | succ fuel ih =>
    intro x l h
    rw [loopLE] at h
    split_ifs at h with hcond
    · cases hrec : loopLE stop inc fuel (x + inc) with
      | error e => rw [hrec, except_map_error] at h; exact absurd h (by simp)
      | ok l' =>
        rw [hrec, except_map_ok] at h
        cases h
        rw [lenLE_step stop inc x hinc hcond, range_map_step, ih _ _ hrec]
    · cases h
      rw [lenLE, if_neg hcond]
      simp

/-- An inclusive loop with enough fuel returns the arithmetic progression. -/
theorem loopLE_eval (stop inc : ℝ) (hinc : 0 < inc) :
    ∀ (fuel : ℕ) (x : ℝ), lenLE stop inc x ≤ fuel →
      loopLE stop inc fuel x =
        .ok ((List.range (lenLE stop inc x)).map (fun k : ℕ => x + (k : ℝ) * inc)) := by
  intro fuel
  induction fuel with
  | zero =>
    intro x hfu
    have hcond : ¬ x ≤ stop := by
      intro hx
      have := lenLE_pos stop inc x hinc hx
      omega
    rw [loopLE, if_neg hcond, lenLE, if_neg hcond]
    simp
  | succ fuel ih =>
    intro x hfu
    rw [loopLE]
    by_cases hcond : x ≤ stop
    · rw [if_pos hcond]
      have hstep := lenLE_step stop inc x hinc hcond
      have hle : lenLE stop inc (x + inc) ≤ fuel := by omega
      rw [ih _ hle, except_map_ok, hstep, range_map_step]
    · rw [if_neg hcond, lenLE, if_neg hcond]
      simp

/-- Whatever list an exclusive loop returns is the arithmetic progression of
its realized length. -/
theorem loopLT_ok_closed (stop inc : ℝ) (hinc : 0 < inc) :
    ∀ (fuel : ℕ) (x : ℝ) (l : List ℝ), loopLT stop inc fuel x = .ok l →
      l = (List.range (lenLT stop inc x)).map (fun k : ℕ => x + (k : ℝ) * inc) := by
  intro fuel
  induction fuel with
  | zero =>
    intro x l h
    rw [loopLT] at h
    split_ifs at h with hcond
    cases h
    have : lenLT stop inc x = 0 := by
      rw [lenLT]
      have hq : (stop - x) / inc ≤ 0 :=
        div_nonpos_iff.mpr (Or.inr ⟨by linarith, hinc.le⟩)
      have := Int.ceil_le.mpr (by exact_mod_cast hq :
        (stop - x) / inc ≤ ((0 : ℤ) : ℝ))
      omega
    rw [this]
    simp
  | succ fuel ih =>
    intro x l h
    rw [loopLT] at h
    split_ifs at h with hcond
    · cases hrec : loopLT stop inc fuel (x + inc) with
      | error e => rw [hrec, except_map_error] at h; exact absurd h (by simp)
      | ok l' =>
        rw [hrec, except_map_ok] at h
        cases h
        rw [lenLT_step stop inc x hinc hcond, range_map_step, ih _ _ hrec]
    · cases h
      have : lenLT stop inc x = 0 := by
        rw [lenLT]
        have hq : (stop - x) / inc ≤ 0 :=
          div_nonpos_iff.mpr (Or.inr ⟨by linarith, hinc.le⟩)
        have := Int.ceil_le.mpr (by exact_mod_cast hq :
          (stop - x) / inc ≤ ((0 : ℤ) : ℝ))
        omega
      rw [this]
      simp

/-- An exclusive loop with enough fuel returns the arithmetic progression. -/
theorem loopLT_eval (stop inc : ℝ) (hinc : 0 < inc) :
    ∀ (fuel : ℕ) (x : ℝ), lenLT stop inc x ≤ fuel →
      loopLT stop inc fuel x =
        .ok ((List.range (lenLT stop inc x)).map (fun k : ℕ => x + (k : ℝ) * inc)) := by
  intro fuel
  induction fuel with
  | zero =>
    intro x hfu
    have hcond : ¬ x < stop := by
      intro hx
      have := lenLT_pos stop inc x hinc hx
      omega
    have hzero : lenLT stop inc x = 0 := by omega
    rw [loopLT, if_neg hcond, hzero]
    simp
  | succ fuel ih =>
    intro x hfu
    rw [loopLT]
    by_cases hcond : x < stop
    · rw [if_pos hcond]
      have hstep := lenLT_step stop inc x hinc hcond
      have hle : lenLT stop inc (x + inc) ≤ fuel := by omega
      rw [ih _ hle, except_map_ok, hstep, range_map_step]
    · rw [if_neg hcond]
      have hzero : lenLT stop inc x = 0 := by
        rw [lenLT]
        have hq : (stop - x) / inc ≤ 0 :=
          div_nonpos_iff.mpr (Or.inr ⟨by linarith, hinc.le⟩)
        have := Int.ceil_le.mpr (by exact_mod_cast hq :
          (stop - x) / inc ≤ ((0 : ℤ) : ℝ))
        omega
      rw [hzero]
      simp

/-- An exclusive loop whose condition fails at entry returns the empty
list at once, whatever the increment and fuel. -/
theorem loopLT_ge (stop inc x : ℝ) (h : ¬ x < stop) :
    ∀ fuel, loopLT stop inc fuel x = .ok [] := by
  intro fuel
  cases fuel <;> rw [loopLT, if_neg h]

/-- `mapM` over `Except` when every element maps to a known `ok` value. -/
theorem list_mapM_ok_of_forall {ε σ τ : Type} (f : σ → Except ε τ) (g : σ → τ) :
    ∀ (xs : List σ), (∀ a ∈ xs, f a = .ok (g a)) → xs.mapM f = .ok (xs.map g)
  | [], _ => rfl
  | a :: xs, h => by
    rw [List.mapM_cons, h a (List.mem_cons_self a xs),
      list_mapM_ok_of_forall f g xs (fun b hb => h b (List.mem_cons_of_mem a hb))]
    rfl

/-- `mapM` over `Except` returns the pointwise-determined list. -/
theorem list_mapM_ok_unique {ε σ τ : Type} (f : σ → Except ε τ) (g : σ → τ) :
    ∀ (xs : List σ) (ys : List τ), xs.mapM f = .ok ys →
      (∀ a ∈ xs, ∀ y, f a = .ok y → y = g a) → ys = xs.map g
  | [], ys, h, _ => by
    rw [List.mapM_nil] at h
    cases h
    rfl
  | a :: xs, ys, h, hu => by
    rw [List.mapM_cons] at h
    rw [except_bind_ok] at h
    obtain ⟨x, hx, h2⟩ := h
    rw [except_bind_ok] at h2
    obtain ⟨l, hl, h3⟩ := h2
    cases h3
    rw [List.map_cons, hu a (List.mem_cons_self a xs) x hx,
      list_mapM_ok_unique f g xs l hl (fun b hb => hu b (List.mem_cons_of_mem a hb))]

/-- Every element of an ok `mapM` result comes from some input element. -/
theorem list_mapM_ok_mem {ε σ τ : Type} (f : σ → Except ε τ) :
    ∀ (xs : List σ) (ys : List τ), xs.mapM f = .ok ys →
      ∀ y ∈ ys, ∃ a ∈ xs, f a = .ok y
  | [], ys, h => by
    rw [List.mapM_nil] at h
    cases h
    intro y hy
    simp at hy
  | a :: xs, ys, h => by
    rw [List.mapM_cons] at h
    rw [except_bind_ok] at h
    obtain ⟨x, hx, h2⟩ := h
    rw [except_bind_ok] at h2
    obtain ⟨l, hl, h3⟩ := h2
    cases h3
    intro y hy
    rcases List.mem_cons.mp hy with rfl | hy'
    · exact ⟨a, List.mem_cons_self a xs, hx⟩
    · obtain ⟨b, hb, hfb⟩ := list_mapM_ok_mem f xs l hl y hy'
      exact ⟨b, List.mem_cons_of_mem a hb, hfb⟩

/-- Length of a flattened map over a range with constant inner length. -/
theorem length_flatten_map {σ : Type} (f : ℕ → List σ) (c : ℕ)
    (h : ∀ k, (f k).length = c) :
    ∀ n, ((List.range n).map f).flatten.length = n * c := by
  intro n
  induction n with
  | zero => simp
  | succ n ih =>
    rw [List.range_succ, List.map_append, List.flatten_append]
    simp only [List.length_append, ih, List.map_cons, List.map_nil,
      List.flatten_cons, List.flatten_nil, List.append_nil, h]
    ring

/-- Realized sample count of an inclusive axis: 1 when max == min, else the
configured count. -/
noncomputable def countLE (mn mx : ℝ) (num : ℤ) : ℕ :=
  if mx = mn then 1 else num.toNat

/-- Realized sample count of an exclusive axis: 0 when max == min, else the
configured count. -/
noncomputable def countLT (mn mx : ℝ) (num : ℤ) : ℕ :=
  if mx = mn then 0 else num.toNat

/-- The inclusive step is positive on a valid axis. -/
theorem stepLE_pos (mn mx : ℝ) (num : ℤ) (h1 : 1 ≤ num) (h2 : mn ≤ mx) :
    0 < stepLE mn mx num := by
  rw [stepLE]
  split_ifs with ha hb
  · norm_num
  · have : mn < mx := lt_of_le_of_ne h2 (fun e => ha e.symm)
    linarith
  · have hlt : mn < mx := lt_of_le_of_ne h2 (fun e => ha e.symm)
    have hnum2 : 2 ≤ num := by omega
    have h2r : (2 : ℝ) ≤ (num : ℝ) := by exact_mod_cast hnum2
    exact div_pos (by linarith) (by linarith)

/-- The realized inclusive iteration count matches the spec count. -/
theorem lenLE_eq_countLE (mn mx : ℝ) (num : ℤ) (h1 : 1 ≤ num) (h2 : mn ≤ mx) :
    lenLE mx (stepLE mn mx num) mn = countLE mn mx num := by
  rw [lenLE, if_pos h2, stepLE, countLE]
  split_ifs with ha hb
  · rw [ha]
    simp
  · have hlt : mn < mx := lt_of_le_of_ne h2 (fun e => ha e.symm)
    have hq0 : (0 : ℝ) ≤ (mx - mn) / (mx - mn + 1) :=
      div_nonneg (by linarith) (by linarith)
    have hq1 : (mx - mn) / (mx - mn + 1) < 1 :=
      (div_lt_one (by linarith)).mpr (by linarith)
    have hfl : ⌊(mx - mn) / (mx - mn + 1)⌋ = 0 := by
      have hc1 := Int.floor_nonneg.mpr hq0
      have hc2 : ⌊(mx - mn) / (mx - mn + 1)⌋ < 1 :=
        Int.floor_lt.mpr (by exact_mod_cast hq1)
      omega
    rw [hfl, hb]
    decide
  · have hlt : mn < mx := lt_of_le_of_ne h2 (fun e => ha e.symm)
    have hnum2 : 2 ≤ num := by omega
    have ha0 : mx - mn ≠ 0 := sub_ne_zero.mpr (ne_of_gt hlt)
    have hq : (mx - mn) / ((mx - mn) / ((num : ℝ) - 1)) = (num : ℝ) - 1 := by
      rw [div_div_eq_mul_div, mul_comm, mul_div_assoc, div_self ha0, mul_one]
    rw [hq, show ((num : ℝ) - 1) = (((num - 1 : ℤ)) : ℝ) by push_cast; ring,
      Int.floor_intCast]
    omega

/-- The realized exclusive iteration count matches the spec count. -/
theorem lenLT_eq_countLT (mn mx : ℝ) (num : ℤ) (_h1 : 1 ≤ num) (h2 : mn ≤ mx) :
    lenLT mx ((mx - mn) / (num : ℝ)) mn = countLT mn mx num := by
  rw [lenLT, countLT]
  split_ifs with ha
  · rw [ha, sub_self]
    simp
  · have hlt : mn < mx := lt_of_le_of_ne h2 (fun e => ha e.symm)
    have ha0 : mx - mn ≠ 0 := sub_ne_zero.mpr (ne_of_gt hlt)
    have hq : (mx - mn) / ((mx - mn) / (num : ℝ)) = (num : ℝ) := by
      rw [div_div_eq_mul_div, mul_comm, mul_div_assoc, div_self ha0, mul_one]
    rw [hq, Int.ceil_intCast]

/-- Whatever an inclusive axis loop returns is its spec progression. -/
theorem loopLE_result (mn mx : ℝ) (num : ℤ) (h1 : 1 ≤ num) (h2 : mn ≤ mx)
    (fuel : ℕ) (l : List ℝ)
    (h : loopLE mx (stepLE mn mx num) fuel mn = .ok l) :
    l = (List.range (countLE mn mx num)).map
      (fun k : ℕ => mn + (k : ℝ) * stepLE mn mx num) := by
  rw [loopLE_ok_closed _ _ (stepLE_pos mn mx num h1 h2) fuel _ _ h,
    lenLE_eq_countLE mn mx num h1 h2]

/-- An inclusive axis loop with enough fuel returns its spec progression. -/
theorem loopLE_eval_result (mn mx : ℝ) (num : ℤ) (h1 : 1 ≤ num) (h2 : mn ≤ mx)
    (fuel : ℕ) (hf : countLE mn mx num ≤ fuel) :
    loopLE mx (stepLE mn mx num) fuel mn =
      .ok ((List.range (countLE mn mx num)).map
        (fun k : ℕ => mn + (k : ℝ) * stepLE mn mx num)) := by
  have hb := lenLE_eq_countLE mn mx num h1 h2
  rw [← hb]
  exact loopLE_eval _ _ (stepLE_pos mn mx num h1 h2) fuel mn (by omega)

/-- Whatever an exclusive axis loop returns is its spec progression. -/
theorem loopLT_result (mn mx : ℝ) (num : ℤ) (h1 : 1 ≤ num) (h2 : mn ≤ mx)
    (fuel : ℕ) (l : List ℝ)
    (h : loopLT mx ((mx - mn) / (num : ℝ)) fuel mn = .ok l) :
    l = (List.range (countLT mn mx num)).map
      (fun k : ℕ => mn + (k : ℝ) * ((mx - mn) / (num : ℝ))) := by
  by_cases ha : mx = mn
  · rw [loopLT_ge mx ((mx - mn) / (num : ℝ)) mn (by rw [ha]; exact lt_irrefl mn) fuel] at h
    cases h
    rw [countLT, if_pos ha]
    simp
  · have hlt : mn < mx := lt_of_le_of_ne h2 (fun e => ha e.symm)
    have hn0 : (0 : ℝ) < (num : ℝ) := by exact_mod_cast (by omega : (0 : ℤ) < num)
    have hinc : 0 < (mx - mn) / (num : ℝ) := div_pos (by linarith) hn0
    rw [loopLT_ok_closed _ _ hinc fuel _ _ h, lenLT_eq_countLT mn mx num h1 h2]

/-- An exclusive axis loop with enough fuel returns its spec progression. -/
theorem loopLT_eval_result (mn mx : ℝ) (num : ℤ) (h1 : 1 ≤ num) (h2 : mn ≤ mx)
    (fuel : ℕ) (hf : countLT mn mx num ≤ fuel) :
    loopLT mx ((mx - mn) / (num : ℝ)) fuel mn =
      .ok ((List.range (countLT mn mx num)).map
        (fun k : ℕ => mn + (k : ℝ) * ((mx - mn) / (num : ℝ)))) := by
  by_cases ha : mx = mn
  · rw [loopLT_ge mx ((mx - mn) / (num : ℝ)) mn (by rw [ha]; exact lt_irrefl mn) fuel]
    rw [countLT, if_pos ha]
    simp
  · have hlt : mn < mx := lt_of_le_of_ne h2 (fun e => ha e.symm)
    have hn0 : (0 : ℝ) < (num : ℝ) := by exact_mod_cast (by omega : (0 : ℤ) < num)
    have hinc : 0 < (mx - mn) / (num : ℝ) := div_pos (by linarith) hn0
    have hb := lenLT_eq_countLT mn mx num h1 h2
    rw [← hb]
    exact loopLT_eval _ _ hinc fuel mn (by omega)

/-- The spec-side closed form of the generated pose grid: radius outermost,
then elevation, then azimuth, then roll innermost, each axis an arithmetic
progression of its realized sample count. -/
noncomputable def gridClosed (v : ViewsphereDiscretizer) : List (RigidTransform ℝ) :=
  ((List.range (countLE v.min_radius v.max_radius v.num_radii)).map (fun i : ℕ =>
    ((List.range (countLE v.min_elev v.max_elev v.num_elev)).map (fun j : ℕ =>
      ((List.range (countLT v.min_az v.max_az v.num_az)).map (fun k : ℕ =>
        (List.range (countLT v.min_roll v.max_roll v.num_roll)).map (fun m : ℕ =>
          mkPose (v.min_radius + (i : ℝ) * stepLE v.min_radius v.max_radius v.num_radii)
            (v.min_az + (k : ℝ) * ((v.max_az - v.min_az) / (v.num_az : ℝ)))
            (v.min_elev + (j : ℝ) * stepLE v.min_elev v.max_elev v.num_elev)
            (v.min_roll + (m : ℝ) *
              ((v.max_roll - v.min_roll) / (v.num_roll : ℝ)))))).flatten)).flatten)).flatten

/-- The closed-form grid has the product of the realized counts as length. -/
theorem gridClosed_length (v : ViewsphereDiscretizer) :
    (gridClosed v).length =
      countLE v.min_radius v.max_radius v.num_radii *
      (countLE v.min_elev v.max_elev v.num_elev *
       (countLT v.min_az v.max_az v.num_az *
        countLT v.min_roll v.max_roll v.num_roll)) := by
  rw [gridClosed]
  exact length_flatten_map _ _ (fun i =>
    length_flatten_map _ _ (fun j =>
      length_flatten_map _ _ (fun k => by
        rw [List.length_map, List.length_range]) _) _) _

/-- With enough fuel for each axis, `object_to_camera_poses` terminates and
returns exactly the closed-form grid. -/
theorem object_to_camera_poses_eval (v : ViewsphereDiscretizer)
    (hnr : 1 ≤ v.num_radii) (hne : 1 ≤ v.num_elev) (hna : 1 ≤ v.num_az)
    (hnl : 1 ≤ v.num_roll)
    (hr : v.min_radius ≤ v.max_radius) (he : v.min_elev ≤ v.max_elev)
    (ha : v.min_az ≤ v.max_az) (hl : v.min_roll ≤ v.max_roll)
    (fuel : ℕ)
    (hf1 : countLE v.min_radius v.max_radius v.num_radii ≤ fuel)
    (hf2 : countLE v.min_elev v.max_elev v.num_elev ≤ fuel)
    (hf3 : countLT v.min_az v.max_az v.num_az ≤ fuel)
    (hf4 : countLT v.min_roll v.max_roll v.num_roll ≤ fuel) :
    v.object_to_camera_poses fuel = .ok (gridClosed v) := by
  have hAz0 : ((v.num_az : ℝ)) ≠ 0 := by
    have h0 : v.num_az ≠ 0 := by omega
    exact_mod_cast h0
  have hRol0 : ((v.num_roll : ℝ)) ≠ 0 := by
    have h0 : v.num_roll ≠ 0 := by omega
    exact_mod_cast h0
  have h1 : ∀ radius az elev : ℝ,
      (do
        let rolls ← loopLT v.max_roll ((v.max_roll - v.min_roll) / (v.num_roll : ℝ))
          fuel v.min_roll
        pure (rolls.map fun roll => mkPose radius az elev roll) :
          Except MeshpyError (List (RigidTransform ℝ))) =
      .ok ((List.range (countLT v.min_roll v.max_roll v.num_roll)).map
        (fun m : ℕ => mkPose radius az elev
          (v.min_roll + (m : ℝ) * ((v.max_roll - v.min_roll) / (v.num_roll : ℝ))))) := by
    intro radius az elev
    simp only [loopLT_eval_result v.min_roll v.max_roll v.num_roll hnl hl fuel hf4,
      except_ok_bind, List.map_map]
    rfl
  have h2 : ∀ radius elev : ℝ,
      (do
        let azs ← loopLT v.max_az ((v.max_az - v.min_az) / (v.num_az : ℝ)) fuel v.min_az
        let n3 ← azs.mapM fun az => do
          let rolls ← loopLT v.max_roll ((v.max_roll - v.min_roll) / (v.num_roll : ℝ))
            fuel v.min_roll
          pure (rolls.map fun roll => mkPose radius az elev roll)
        pure n3.flatten : Except MeshpyError (List (RigidTransform ℝ))) =
      .ok (((List.range (countLT v.min_az v.max_az v.num_az)).map
        (fun k : ℕ => (List.range (countLT v.min_roll v.max_roll v.num_roll)).map
          (fun m : ℕ => mkPose radius
            (v.min_az + (k : ℝ) * ((v.max_az - v.min_az) / (v.num_az : ℝ))) elev
            (v.min_roll + (m : ℝ) *
              ((v.max_roll - v.min_roll) / (v.num_roll : ℝ)))))).flatten) := by
    intro radius elev
    have hm := list_mapM_ok_of_forall _ _
      ((List.range (countLT v.min_az v.max_az v.num_az)).map
        (fun k : ℕ => v.min_az + (k : ℝ) * ((v.max_az - v.min_az) / (v.num_az : ℝ))))
      (fun a _ => h1 radius a elev)
    simp only [loopLT_eval_result v.min_az v.max_az v.num_az hna ha fuel hf3,
      except_ok_bind, hm, List.map_map]
    rfl
  have h3 : ∀ radius : ℝ,
      (do
        let elevs ← loopLE v.max_elev (stepLE v.min_elev v.max_elev v.num_elev)
          fuel v.min_elev
        let n2 ← elevs.mapM fun elev => do
          let azs ← loopLT v.max_az ((v.max_az - v.min_az) / (v.num_az : ℝ)) fuel v.min_az
          let n3 ← azs.mapM fun az => do
            let rolls ← loopLT v.max_roll ((v.max_roll - v.min_roll) / (v.num_roll : ℝ))
              fuel v.min_roll
            pure (rolls.map fun roll => mkPose radius az elev roll)
          pure n3.flatten
        pure n2.flatten : Except MeshpyError (List (RigidTransform ℝ))) =
      .ok (((List.range (countLE v.min_elev v.max_elev v.num_elev)).map
        (fun j : ℕ => ((List.range (countLT v.min_az v.max_az v.num_az)).map
          (fun k : ℕ => (List.range (countLT v.min_roll v.max_roll v.num_roll)).map
            (fun m : ℕ => mkPose radius
              (v.min_az + (k : ℝ) * ((v.max_az - v.min_az) / (v.num_az : ℝ)))
              (v.min_elev + (j : ℝ) * stepLE v.min_elev v.max_elev v.num_elev)
              (v.min_roll + (m : ℝ) *
                ((v.max_roll - v.min_roll) / (v.num_roll : ℝ)))))).flatten)).flatten) := by
    intro radius
    have hm := list_mapM_ok_of_forall _ _
      ((List.range (countLE v.min_elev v.max_elev v.num_elev)).map
        (fun j : ℕ => v.min_elev + (j : ℝ) * stepLE v.min_elev v.max_elev v.num_elev))
      (fun a _ => h2 radius a)
    simp only [loopLE_eval_result v.min_elev v.max_elev v.num_elev hne he fuel hf2,
      except_ok_bind, hm, List.map_map]
    rfl
  have hm := list_mapM_ok_of_forall _ _
    ((List.range (countLE v.min_radius v.max_radius v.num_radii)).map
      (fun i : ℕ => v.min_radius + (i : ℝ) * stepLE v.min_radius v.max_radius v.num_radii))
    (fun a _ => h3 a)
  simp only [ViewsphereDiscretizer.object_to_camera_poses, incStep_ok, except_ok_bind,
    pydiv_ok _ _ hAz0, pydiv_ok _ _ hRol0,
    loopLE_eval_result v.min_radius v.max_radius v.num_radii hnr hr fuel hf1, hm,
    List.map_map]
  rfl

/-- C2 (amended): in exact arithmetic, whatever list `object_to_camera_poses`
returns is the closed-form grid ordered radius outermost, then elevation,
then azimuth, then roll innermost, and its length is the product of the
realized per-axis counts: 1 for radius/elevation when min == max and the
configured num otherwise, and for azimuth/roll the configured num when
min < max but 0 when min == max (the half-open loop then runs no
iteration). -/
theorem claim_C2_amended_grid_count (v : ViewsphereDiscretizer)
    (hnr : 1 ≤ v.num_radii) (hne : 1 ≤ v.num_elev) (hna : 1 ≤ v.num_az)
    (hnl : 1 ≤ v.num_roll)
    (hr : v.min_radius ≤ v.max_radius) (he : v.min_elev ≤ v.max_elev)
    (ha : v.min_az ≤ v.max_az) (hl : v.min_roll ≤ v.max_roll)
    (fuel : ℕ) (l : List (RigidTransform ℝ))
    (hok : v.object_to_camera_poses fuel = .ok l) :
    l = gridClosed v ∧
    l.length =
      countLE v.min_radius v.max_radius v.num_radii *
      (countLE v.min_elev v.max_elev v.num_elev *
       (countLT v.min_az v.max_az v.num_az *
        countLT v.min_roll v.max_roll v.num_roll)) := by
  have hAz0 : ((v.num_az : ℝ)) ≠ 0 := by
    have h0 : v.num_az ≠ 0 := by omega
    exact_mod_cast h0
  have hRol0 : ((v.num_roll : ℝ)) ≠ 0 := by
    have h0 : v.num_roll ≠ 0 := by omega
    exact_mod_cast h0
  simp only [ViewsphereDiscretizer.object_to_camera_poses, incStep_ok, except_ok_bind,
    pydiv_ok _ _ hAz0, pydiv_ok _ _ hRol0] at hok
  rw [except_bind_ok] at hok
  obtain ⟨radii, hradii, hok⟩ := hok
  rw [except_bind_ok] at hok
  obtain ⟨nested, hnested, hpure⟩ := hok
  cases hpure
  have h1 : ∀ (radius az elev : ℝ) (y : List (RigidTransform ℝ)),
      (do
        let rolls ← loopLT v.max_roll ((v.max_roll - v.min_roll) / (v.num_roll : ℝ))
          fuel v.min_roll
        pure (rolls.map fun roll => mkPose radius az elev roll) :
          Except MeshpyError (List (RigidTransform ℝ))) = .ok y →
      y = (List.range (countLT v.min_roll v.max_roll v.num_roll)).map
        (fun m : ℕ => mkPose radius az elev
          (v.min_roll + (m : ℝ) * ((v.max_roll - v.min_roll) / (v.num_roll : ℝ)))) := by
    intro radius az elev y hy
    rw [except_bind_ok] at hy
    obtain ⟨rolls, hrolls, hp⟩ := hy
    cases hp
    rw [loopLT_result _ _ _ hnl hl _ _ hrolls, List.map_map]
    rfl
  have h2 : ∀ (radius elev : ℝ) (y : List (RigidTransform ℝ)),
      (do
        let azs ← loopLT v.max_az ((v.max_az - v.min_az) / (v.num_az : ℝ)) fuel v.min_az
        let n3 ← azs.mapM fun az => do
          let rolls ← loopLT v.max_roll ((v.max_roll - v.min_roll) / (v.num_roll : ℝ))
            fuel v.min_roll
          pure (rolls.map fun roll => mkPose radius az elev roll)
        pure n3.flatten : Except MeshpyError (List (RigidTransform ℝ))) = .ok y →
      y = (((List.range (countLT v.min_az v.max_az v.num_az)).map
        (fun k : ℕ => (List.range (countLT v.min_roll v.max_roll v.num_roll)).map
          (fun m : ℕ => mkPose radius
            (v.min_az + (k : ℝ) * ((v.max_az - v.min_az) / (v.num_az : ℝ))) elev
            (v.min_roll + (m : ℝ) *
              ((v.max_roll - v.min_roll) / (v.num_roll : ℝ)))))).flatten) := by
    intro radius elev y hy
    rw [except_bind_ok] at hy
    obtain ⟨azs, hazs, hy2⟩ := hy
    rw [except_bind_ok] at hy2
    obtain ⟨n3, hn3, hp⟩ := hy2
    cases hp
    have hn3u := list_mapM_ok_unique _
      (fun az : ℝ => (List.range (countLT v.min_roll v.max_roll v.num_roll)).map
        (fun m : ℕ => mkPose radius az elev
          (v.min_roll + (m : ℝ) * ((v.max_roll - v.min_roll) / (v.num_roll : ℝ)))))
      azs n3 hn3 (fun a _ y hy => h1 radius a elev y hy)
    rw [hn3u, loopLT_result _ _ _ hna ha _ _ hazs, List.map_map]
    rfl
  have h3 : ∀ (radius : ℝ) (y : List (RigidTransform ℝ)),
      (do
        let elevs ← loopLE v.max_elev (stepLE v.min_elev v.max_elev v.num_elev)
          fuel v.min_elev
        let n2 ← elevs.mapM fun elev => do
          let azs ← loopLT v.max_az ((v.max_az - v.min_az) / (v.num_az : ℝ)) fuel v.min_az
          let n3 ← azs.mapM fun az => do
            let rolls ← loopLT v.max_roll ((v.max_roll - v.min_roll) / (v.num_roll : ℝ))
              fuel v.min_roll
            pure (rolls.map fun roll => mkPose radius az elev roll)
          pure n3.flatten
        pure n2.flatten : Except MeshpyError (List (RigidTransform ℝ))) = .ok y →
      y = (((List.range (countLE v.min_elev v.max_elev v.num_elev)).map
        (fun j : ℕ => ((List.range (countLT v.min_az v.max_az v.num_az)).map
          (fun k : ℕ => (List.range (countLT v.min_roll v.max_roll v.num_roll)).map
            (fun m : ℕ => mkPose radius
              (v.min_az + (k : ℝ) * ((v.max_az - v.min_az) / (v.num_az : ℝ)))
              (v.min_elev + (j : ℝ) * stepLE v.min_elev v.max_elev v.num_elev)
              (v.min_roll + (m : ℝ) *
                ((v.max_roll - v.min_roll) / (v.num_roll : ℝ)))))).flatten)).flatten) := by
    intro radius y hy
    rw [except_bind_ok] at hy
    obtain ⟨elevs, helevs, hy2⟩ := hy
    rw [except_bind_ok] at hy2
    obtain ⟨n2, hn2, hp⟩ := hy2
    cases hp
    have hn2u := list_mapM_ok_unique _
      (fun elev : ℝ => ((List.range (countLT v.min_az v.max_az v.num_az)).map
        (fun k : ℕ => (List.range (countLT v.min_roll v.max_roll v.num_roll)).map
          (fun m : ℕ => mkPose radius
            (v.min_az + (k : ℝ) * ((v.max_az - v.min_az) / (v.num_az : ℝ))) elev
            (v.min_roll + (m : ℝ) *
              ((v.max_roll - v.min_roll) / (v.num_roll : ℝ)))))).flatten)
      elevs n2 hn2 (fun a _ y hy => h2 radius a y hy)
    rw [hn2u, loopLE_result _ _ _ hne he _ _ helevs, List.map_map]
    rfl
  have hnu := list_mapM_ok_unique _
    (fun radius : ℝ => (((List.range (countLE v.min_elev v.max_elev v.num_elev)).map
      (fun j : ℕ => ((List.range (countLT v.min_az v.max_az v.num_az)).map
        (fun k : ℕ => (List.range (countLT v.min_roll v.max_roll v.num_roll)).map
          (fun m : ℕ => mkPose radius
            (v.min_az + (k : ℝ) * ((v.max_az - v.min_az) / (v.num_az : ℝ)))
            (v.min_elev + (j : ℝ) * stepLE v.min_elev v.max_elev v.num_elev)
            (v.min_roll + (m : ℝ) *
              ((v.max_roll - v.min_roll) / (v.num_roll : ℝ)))))).flatten)).flatten))
    radii nested hnested (fun a _ y hy => h3 a y hy)
  have hgrid : nested.flatten = gridClosed v := by
    rw [hnu, loopLE_result _ _ _ hnr hr _ _ hradii, List.map_map, gridClosed]
    rfl
  refine ⟨hgrid, ?_⟩
  rw [hgrid, gridClosed_length]

/-- C2 as stated is false on the code: with min_az == max_az, the half-open
azimuth loop runs zero times, so the returned list is empty rather than of
length num_radii * num_elev * num_az * num_roll = 1. -/
theorem claim_C2_counterexample :
    ¬ ∀ l : List (RigidTransform ℝ),
        ViewsphereDiscretizer.object_to_camera_poses
          ⟨1, 1, 1, 0, 0, 1, 0, 0, 1, 0, 1, 1⟩ 3 = .ok l →
        l.length = 1 * 1 * 1 * 1 := by
  intro hcl
  have hok := object_to_camera_poses_eval ⟨1, 1, 1, 0, 0, 1, 0, 0, 1, 0, 1, 1⟩
    (by norm_num) (by norm_num) (by norm_num) (by norm_num)
    (by norm_num) (by norm_num) (by norm_num) (by norm_num) 3
    (by norm_num [countLE]) (by norm_num [countLE])
    (by norm_num [countLT]) (by norm_num [countLT])
  have hgrid : gridClosed ⟨1, 1, 1, 0, 0, 1, 0, 0, 1, 0, 1, 1⟩ = [] := by
    norm_num [gridClosed, countLE, countLT]
  rw [hgrid] at hok
  have hlen := hcl [] hok
  norm_num at hlen

/-- Witness for the amended C2 at a concrete configuration with one sample
per axis. -/
theorem claim_C2_witness :
    ∃ l : List (RigidTransform ℝ),
      ViewsphereDiscretizer.object_to_camera_poses
        ⟨1, 1, 1, 0, 1, 1, 0, 0, 1, 0, 1, 1⟩ 3 = .ok l ∧ l.length = 1 := by
  have hok := object_to_camera_poses_eval ⟨1, 1, 1, 0, 1, 1, 0, 0, 1, 0, 1, 1⟩
    (by norm_num) (by norm_num) (by norm_num) (by norm_num)
    (by norm_num) (by norm_num) (by norm_num) (by norm_num) 3
    (by norm_num [countLE]) (by norm_num [countLE])
    (by norm_num [countLT]) (by norm_num [countLT])
  refine ⟨_, hok, ?_⟩
  have hlen := (claim_C2_amended_grid_count ⟨1, 1, 1, 0, 1, 1, 0, 0, 1, 0, 1, 1⟩
    (by norm_num) (by norm_num) (by norm_num) (by norm_num)
    (by norm_num) (by norm_num) (by norm_num) (by norm_num) 3 _ hok).2
  rw [hlen]
  norm_num [countLE, countLT]

/-- The cross product components. -/
theorem cross3_c0 (a b : Fin 3 → ℝ) : cross3 a b 0 = a 1 * b 2 - a 2 * b 1 := rfl

/-- The cross product components. -/
theorem cross3_c1 (a b : Fin 3 → ℝ) : cross3 a b 1 = a 2 * b 0 - a 0 * b 2 := rfl

/-- The cross product components. -/
theorem cross3_c2 (a b : Fin 3 → ℝ) : cross3 a b 2 = a 0 * b 1 - a 1 * b 0 := rfl

/-- Componentwise division, applied. -/
theorem vdiv_c (v : Fin 3 → ℝ) (c : ℝ) (i : Fin 3) : vdiv v c i = v i / c := rfl

/-- The squared norm is the sum of squares. -/
theorem norm3_sq (v : Fin 3 → ℝ) : norm3 v ^ 2 = v 0 ^ 2 + v 1 ^ 2 + v 2 ^ 2 := by
  rw [norm3]
  exact Real.sq_sqrt (by positivity)

/-- A vector whose squared components sum to n² becomes a unit vector when
divided by n. -/
theorem unit_of_vdiv (v : Fin 3 → ℝ) (n : ℝ) (hn : n ≠ 0)
    (h : v 0 ^ 2 + v 1 ^ 2 + v 2 ^ 2 = n ^ 2) :
    dot3 (vdiv v n) (vdiv v n) = 1 := by
  simp only [dot3, vdiv_c]
  field_simp
  linear_combination h

/-- Dividing by the norm yields a unit vector. -/
theorem vdiv_norm3_unit (v : Fin 3 → ℝ) (hv : norm3 v ≠ 0) :
    dot3 (vdiv v (norm3 v)) (vdiv v (norm3 v)) = 1 :=
  unit_of_vdiv v (norm3 v) hv (norm3_sq v).symm

/-- The columns-to-matrix map, entrywise orthonormality gives `R.transpose R = 1`. -/
theorem colMat_orthonormal (x y z : Fin 3 → ℝ)
    (hx : dot3 x x = 1) (hy : dot3 y y = 1) (hz : dot3 z z = 1)
    (hxy : dot3 x y = 0) (hxz : dot3 x z = 0) (hyz : dot3 y z = 0) :
    (colMat x y z).transpose * colMat x y z = 1 := by
  simp only [dot3] at hx hy hz hxy hxz hyz
  ext i j
  simp only [Matrix.mul_apply, Matrix.transpose_apply, Fin.sum_univ_three, colMat,
    Matrix.of_apply, Matrix.one_apply]
  fin_cases i <;> fin_cases j <;> norm_num [Fin.ext_iff] <;>
    first
      | linear_combination hx
      | linear_combination hy
      | linear_combination hz
      | linear_combination hxy
      | linear_combination hxz
      | linear_combination hyz

/-- The determinant of a frame whose middle column is the cross product of
the outer two is the Lagrange expression. -/
theorem colMat_cross_det (x z : Fin 3 → ℝ) (hx : dot3 x x = 1) (hz : dot3 z z = 1)
    (hxz : dot3 x z = 0) : (colMat x (cross3 z x) z).det = 1 := by
  simp only [dot3] at hx hz hxz
  have hdet : (colMat x (cross3 z x) z).det =
      (z 0 * z 0 + z 1 * z 1 + z 2 * z 2) * (x 0 * x 0 + x 1 * x 1 + x 2 * x 2) -
        (x 0 * z 0 + x 1 * z 1 + x 2 * z 2) ^ 2 := by
    rw [Matrix.det_fin_three]
    simp only [colMat, Matrix.of_apply, cross3_c0, cross3_c1, cross3_c2]
    norm_num [Fin.ext_iff]
    ring
  rw [hdet, hx, hz, hxz]
  norm_num

/-- The frame built from a unit x-axis orthogonal to a unit z-axis, with the
y-axis the normalized cross product, is orthonormal with determinant +1. -/
theorem frame_lemma (z x : Fin 3 → ℝ) (hz : dot3 z z = 1) (hx : dot3 x x = 1)
    (hxz : dot3 x z = 0) :
    ((colMat x (vdiv (cross3 z x) (norm3 (cross3 z x))) z).transpose *
        colMat x (vdiv (cross3 z x) (norm3 (cross3 z x))) z = 1) ∧
    (colMat x (vdiv (cross3 z x) (norm3 (cross3 z x))) z).det = 1 := by
  have hcc : dot3 (cross3 z x) (cross3 z x) = 1 := by
    have hlag : dot3 (cross3 z x) (cross3 z x) =
        dot3 z z * dot3 x x - dot3 x z ^ 2 := by
      simp only [dot3, cross3_c0, cross3_c1, cross3_c2]
      ring
    rw [hlag, hz, hx, hxz]
    norm_num
  have hnc : norm3 (cross3 z x) = 1 := by
    have hs : (cross3 z x) 0 ^ 2 + (cross3 z x) 1 ^ 2 + (cross3 z x) 2 ^ 2 =
        dot3 (cross3 z x) (cross3 z x) := by
      rw [dot3]; ring
    rw [norm3, hs, hcc, Real.sqrt_one]
  have hy : vdiv (cross3 z x) (norm3 (cross3 z x)) = cross3 z x := by
    funext i
    rw [vdiv_c, hnc, div_one]
  rw [hy]
  have hyx : dot3 x (cross3 z x) = 0 := by
    simp only [dot3, cross3_c0, cross3_c1, cross3_c2]
    ring
  have hyz : dot3 (cross3 z x) z = 0 := by
    simp only [dot3, cross3_c0, cross3_c1, cross3_c2]
    ring
  exact ⟨colMat_orthonormal x (cross3 z x) z hx hcc hz hyx hxz hyz,
    colMat_cross_det x z hx hz hxz⟩

/-- The roll rotation is orthonormal with determinant +1. -/
theorem rollMat_props (roll : ℝ) :
    (rollMat roll).transpose * rollMat roll = 1 ∧ (rollMat roll).det = 1 := by
  constructor
  · ext i j
    simp only [Matrix.mul_apply, Matrix.transpose_apply, Fin.sum_univ_three,
      Matrix.one_apply]
    fin_cases i <;> fin_cases j <;>
      simp [rollMat] <;>
      first
        | ring1
        | linear_combination Real.sin_sq_add_cos_sq roll
  · rw [Matrix.det_fin_three]
    simp [rollMat]
    linear_combination Real.sin_sq_add_cos_sq roll

/-- A product of orthonormal determinant-one matrices, transposed, is again
orthonormal with determinant one. -/
theorem rot_mul_props (A B : Matrix (Fin 3) (Fin 3) ℝ)
    (hA : A.transpose * A = 1) (hdA : A.det = 1) (hB : B.transpose * B = 1) (hdB : B.det = 1) :
    ((A * B).transpose).transpose * (A * B).transpose = 1 ∧ ((A * B).transpose).det = 1 := by
  have h1 : (A * B).transpose * (A * B) = 1 := by
    rw [Matrix.transpose_mul]
    calc B.transpose * A.transpose * (A * B) = B.transpose * (A.transpose * A * B) := by
          rw [Matrix.mul_assoc, Matrix.mul_assoc]
      _ = B.transpose * B := by rw [hA, Matrix.one_mul]
      _ = 1 := hB
  exact ⟨by rw [Matrix.transpose_transpose]; exact Matrix.mul_eq_one_comm.mp h1,
    by rw [Matrix.det_transpose, Matrix.det_mul, hdA, hdB, mul_one]⟩

/-- The squared components of the camera center sum to radius². -/
theorem cameraCenter_sq (radius az elev : ℝ) :
    cameraCenter radius az elev 0 ^ 2 + cameraCenter radius az elev 1 ^ 2 +
      cameraCenter radius az elev 2 ^ 2 = radius ^ 2 := by
  have h0 : cameraCenter radius az elev 0 = radius * Real.cos az * Real.sin elev := rfl
  have h1 : cameraCenter radius az elev 1 = radius * Real.sin az * Real.sin elev := rfl
  have h2 : cameraCenter radius az elev 2 = radius * Real.cos elev := rfl
  rw [h0, h1, h2]
  have hfac : (radius * Real.cos az * Real.sin elev) ^ 2 +
      (radius * Real.sin az * Real.sin elev) ^ 2 + (radius * Real.cos elev) ^ 2 =
      radius ^ 2 * (Real.sin elev ^ 2 * (Real.sin az ^ 2 + Real.cos az ^ 2) +
        Real.cos elev ^ 2) := by
    ring
  rw [hfac, Real.sin_sq_add_cos_sq, mul_one, Real.sin_sq_add_cos_sq, mul_one]

/-- The camera center has norm |radius|. -/
theorem norm3_cameraCenter (radius az elev : ℝ) :
    norm3 (cameraCenter radius az elev) = |radius| := by
  rw [norm3, cameraCenter_sq, Real.sqrt_sq_eq_abs]

/-- The camera z-axis is a unit vector when the radius is nonzero. -/
theorem cameraZ_unit (radius az elev : ℝ) (h : radius ≠ 0) :
    dot3 (cameraZ radius az elev) (cameraZ radius az elev) = 1 := by
  rw [cameraZ]
  refine unit_of_vdiv _ _ ?_ ?_
  · rw [norm3_cameraCenter]
    exact abs_ne_zero.mpr h
  · simp only [Pi.neg_apply, neg_sq]
    rw [cameraCenter_sq, norm3_cameraCenter, sq_abs]

/-- The normalized parallel x-axis is a unit vector orthogonal to z. -/
theorem cameraX1_props (z : Fin 3 → ℝ) :
    dot3 (cameraX1 z) (cameraX1 z) = 1 ∧ dot3 (cameraX1 z) z = 0 := by
  rw [cameraX1, cameraXPar]
  split_ifs with hpole
  · have hpole' : Real.sqrt (z 1 ^ 2 + (-z 0) ^ 2 + (0 : ℝ) ^ 2) = 0 := hpole
    have hS : z 1 ^ 2 + (-z 0) ^ 2 + (0 : ℝ) ^ 2 = 0 :=
      (Real.sqrt_eq_zero (by positivity)).mp hpole'
    have hS' : z 1 ^ 2 + z 0 ^ 2 = 0 := by
      have hneg : (-z 0) ^ 2 = z 0 ^ 2 := neg_sq (z 0)
      nlinarith [hS]
    have hz0 : z 0 = 0 := by
      have h1 : z 0 ^ 2 = 0 := by nlinarith [sq_nonneg (z 1), sq_nonneg (z 0)]
      exact pow_eq_zero_iff (by norm_num) |>.mp h1
    have hn : norm3 (![1, 0, 0] : Fin 3 → ℝ) = 1 := by
      have hd : norm3 (![1, 0, 0] : Fin 3 → ℝ) =
          Real.sqrt ((1 : ℝ) ^ 2 + 0 ^ 2 + 0 ^ 2) := rfl
      rw [hd]
      norm_num
    constructor
    · exact vdiv_norm3_unit _ (by rw [hn]; norm_num)
    · have hc : dot3 (vdiv (![1, 0, 0] : Fin 3 → ℝ) (norm3 (![1, 0, 0] : Fin 3 → ℝ))) z =
          (1 / norm3 (![1, 0, 0] : Fin 3 → ℝ)) * z 0 +
          (0 / norm3 (![1, 0, 0] : Fin 3 → ℝ)) * z 1 +
          (0 / norm3 (![1, 0, 0] : Fin 3 → ℝ)) * z 2 := rfl
      rw [hc, hn, hz0]
      norm_num
  · constructor
    · exact vdiv_norm3_unit _ hpole
    · have hc : dot3 (vdiv (![z 1, -z 0, 0] : Fin 3 → ℝ)
          (norm3 (![z 1, -z 0, 0] : Fin 3 → ℝ))) z =
          (z 1 / norm3 (![z 1, -z 0, 0] : Fin 3 → ℝ)) * z 0 +
          (-z 0 / norm3 (![z 1, -z 0, 0] : Fin 3 → ℝ)) * z 1 +
          ((0 : ℝ) / norm3 (![z 1, -z 0, 0] : Fin 3 → ℝ)) * z 2 := rfl
      rw [hc]
      ring

/-- The tie-broken x-axis is a unit vector orthogonal to z. -/
theorem cameraX2_props (z : Fin 3 → ℝ) :
    dot3 (cameraX2 z) (cameraX2 z) = 1 ∧ dot3 (cameraX2 z) z = 0 := by
  have h := cameraX1_props z
  have h1 := h.1
  have h2 := h.2
  rw [cameraX2]
  split_ifs
  · simp only [dot3, Pi.neg_apply] at h1 h2 ⊢
    constructor
    · linear_combination h1
    · linear_combination -h2
  · exact ⟨h1, h2⟩

/-- The tie-broken y-axis is the normalized cross product of z and the
tie-broken x-axis. -/
theorem cameraY2_eq (z : Fin 3 → ℝ) :
    cameraY2 z = vdiv (cross3 z (cameraX2 z)) (norm3 (cross3 z (cameraX2 z))) := by
  rw [cameraY2, cameraX2]
  split_ifs <;> rfl

/-- The rotation of each generated pose is orthonormal with determinant +1,
for a nonzero radius. -/
theorem mkPose_rotation_props (radius az elev roll : ℝ) (h : radius ≠ 0) :
    ((mkPose radius az elev roll).rotation).transpose *
      (mkPose radius az elev roll).rotation = 1 ∧
    ((mkPose radius az elev roll).rotation).det = 1 := by
  have hz := cameraZ_unit radius az elev h
  have hx2 := cameraX2_props (cameraZ radius az elev)
  have hfr := frame_lemma (cameraZ radius az elev) (cameraX2 (cameraZ radius az elev))
    hz hx2.1 hx2.2
  rw [← cameraY2_eq] at hfr
  have hroll := rollMat_props roll
  have hrot : (mkPose radius az elev roll).rotation =
      (colMat (cameraX2 (cameraZ radius az elev)) (cameraY2 (cameraZ radius az elev))
        (cameraZ radius az elev) * rollMat roll).transpose := rfl
  rw [hrot]
  exact rot_mul_props _ _ hfr.1 hfr.2 hroll.1 hroll.2

/-- C3: for every configuration with a positive radius range (all radius
samples nonzero) and counts at least 1, every rotation in the transforms
produced by `object_to_camera_poses` is orthonormal with determinant +1,
pole cases included. -/
theorem claim_C3_rotations_orthonormal (v : ViewsphereDiscretizer)
    (h0 : 0 < v.min_radius) (hr : v.min_radius ≤ v.max_radius)
    (hnr : 1 ≤ v.num_radii)
    (fuel : ℕ) (l : List (RigidTransform ℝ))
    (hok : v.object_to_camera_poses fuel = .ok l) :
    ∀ T ∈ l, (T.rotation).transpose * T.rotation = 1 ∧ T.rotation.det = 1 := by
  simp only [ViewsphereDiscretizer.object_to_camera_poses] at hok
  rw [except_bind_ok] at hok
  obtain ⟨radius_inc, hrinc, hok⟩ := hok
  rw [incStep_ok] at hrinc
  cases hrinc
  rw [except_bind_ok] at hok
  obtain ⟨az_inc, -, hok⟩ := hok
  rw [except_bind_ok] at hok
  obtain ⟨elev_inc, -, hok⟩ := hok
  rw [except_bind_ok] at hok
  obtain ⟨roll_inc, -, hok⟩ := hok
  rw [except_bind_ok] at hok
  obtain ⟨radii, hradii, hok⟩ := hok
  rw [except_bind_ok] at hok
  obtain ⟨nested, hnested, hpure⟩ := hok
  cases hpure
  intro T hT
  rw [List.mem_flatten] at hT
  obtain ⟨inner1, hmem1, hT1⟩ := hT
  obtain ⟨radius, hradmem, hrad_ok⟩ := list_mapM_ok_mem _ radii nested hnested inner1 hmem1
  rw [except_bind_ok] at hrad_ok
  obtain ⟨elevs, -, hrad_ok⟩ := hrad_ok
  rw [except_bind_ok] at hrad_ok
  obtain ⟨n2, hn2, hp2⟩ := hrad_ok
  cases hp2
  rw [List.mem_flatten] at hT1
  obtain ⟨inner2, hmem2, hT2⟩ := hT1
  obtain ⟨elev, -, helev_ok⟩ := list_mapM_ok_mem _ elevs n2 hn2 inner2 hmem2
  rw [except_bind_ok] at helev_ok
  obtain ⟨azs, -, helev_ok⟩ := helev_ok
  rw [except_bind_ok] at helev_ok
  obtain ⟨n3, hn3, hp3⟩ := helev_ok
  cases hp3
  rw [List.mem_flatten] at hT2
  obtain ⟨inner3, hmem3, hT3⟩ := hT2
  obtain ⟨az, -, haz_ok⟩ := list_mapM_ok_mem _ azs n3 hn3 inner3 hmem3
  rw [except_bind_ok] at haz_ok
  obtain ⟨rolls, -, haz_ok⟩ := haz_ok
  cases haz_ok
  rw [List.mem_map] at hT3
  obtain ⟨roll, -, hTeq⟩ := hT3
  have hradii_closed :=
    loopLE_result v.min_radius v.max_radius v.num_radii hnr hr fuel radii hradii
  rw [hradii_closed, List.mem_map] at hradmem
  obtain ⟨k, -, hkval⟩ := hradmem
  have hrpos : 0 < radius := by
    rw [← hkval]
    have hstep := stepLE_pos v.min_radius v.max_radius v.num_radii hnr hr
    have hk0 : (0 : ℝ) ≤ (k : ℝ) * stepLE v.min_radius v.max_radius v.num_radii :=
      mul_nonneg (Nat.cast_nonneg k) hstep.le
    linarith
  subst hTeq
  exact mkPose_rotation_props radius az elev roll (ne_of_gt hrpos)

/-- Witness for C3 at a one-sample-per-axis configuration. -/
theorem claim_C3_witness :
    ∃ l : List (RigidTransform ℝ),
      ViewsphereDiscretizer.object_to_camera_poses
        ⟨1, 1, 1, 0, 1, 1, 0, 0, 1, 0, 1, 1⟩ 3 = .ok l ∧
      ∀ T ∈ l, (T.rotation).transpose * T.rotation = 1 ∧ T.rotation.det = 1 := by
  have hok := object_to_camera_poses_eval ⟨1, 1, 1, 0, 1, 1, 0, 0, 1, 0, 1, 1⟩
    (by norm_num) (by norm_num) (by norm_num) (by norm_num)
    (by norm_num) (by norm_num) (by norm_num) (by norm_num) 3
    (by norm_num [countLE]) (by norm_num [countLE])
    (by norm_num [countLT]) (by norm_num [countLT])
  exact ⟨_, hok, claim_C3_rotations_orthonormal ⟨1, 1, 1, 0, 1, 1, 0, 0, 1, 0, 1, 1⟩
    (by norm_num) (by norm_num) (by norm_num) 3 _ hok⟩
